import Mathlib

/-!
# Qt Project File Generator: a verification development

A shallow embedding of `src/main.cpp` (classes `ProjectItems`, `Project`,
`Option`, `Options` and the function `main`) together with the Qt primitives
the program calls, followed by theorems about the embedded program.

Conventions of the embedding.

* A `QString` is its sequence of UTF-16 code units (`List Nat`); a null
  `QString` is `none` of `Option QString`.
* Paths are Unix style: the separator is the code unit 47.
* `QRegExp` is embedded as a syntax tree with a backtracking matcher that
  computes, for a start position, every position at which a match can end.
* The file system seen by `ProjectItems::scan` is a finite tree of entries.
  Symbolic links are followed by `QFileInfo`, so a link to a file is a `file`
  entry and a link to a directory a `dir` entry. An entry carries what
  `QDir::entryInfoList` looks at: whether it is hidden, whether it is a regular
  file, a directory or a special file, and whether a directory can be read.
* Loops of the program are embedded as state-passing functions; the `while`
  loop of the `Options` constructor carries explicit fuel and returns `none`
  when the fuel runs out.
-/

namespace Qpfg

/-! ## Strings -/

/-- A `QString`: the sequence of its UTF-16 code units. -/
abbrev QString := List Nat

/-- The code units of an ASCII literal. -/
def qstr (s : String) : QString := s.toList.map Char.toNat

/-- Lower-casing of a code unit as in `QChar::toLower`, on the ASCII range. The regular
expressions of the program contain only the characters `.`, `h`, `p` and `c`; the only
other characters whose lower case is one of them are the ASCII capitals `H`, `P`, `C`. -/
def QChar.toLower (c : Nat) : Nat := if 65 ≤ c ∧ c ≤ 90 then c + 32 else c

/-- The call `QString::startsWith(s)`, case sensitive. -/
def QString.startsWith (self s : QString) : Bool := s.isPrefixOf self

/-- The call `QString::endsWith(s, Qt::CaseInsensitive)`. -/
def QString.endsWithCI (self s : QString) : Bool :=
  (s.map QChar.toLower).isSuffixOf (self.map QChar.toLower)

/-- The comparison `operator<` of `QString` (`ucstrcmp`): lexicographic on code units. -/
def QString.lt : QString → QString → Bool
  | [], [] => false
  | [], _ :: _ => true
  | _ :: _, [] => false
  | a :: as, b :: bs => if a < b then true else if b < a then false else QString.lt as bs

/-- The call `QStringList::sort()`: ascending under `operator<` of `QString`. Two strings
neither of which is less than the other are equal, so the result does not depend on the
sorting algorithm. -/
def QStringList.sort (l : List QString) : List QString :=
  l.insertionSort (fun a b => QString.lt b a = false)

/-- The call `QString::split('/', QString::SkipEmptyParts)`. -/
def QString.splitSkipEmpty (self : QString) : List QString :=
  (self.splitOn 47).filter (fun part => !part.isEmpty)

/-! ## Regular expressions -/

/-- Syntax of the fragment of `QRegExp` patterns the program uses. -/
inductive QRegExp where
  /-- a literal character -/
  | chr (c : Nat)
  /-- the pattern `.`: any one character -/
  | any
  /-- the assertion `^`: the start of the string -/
  | bol
  /-- the assertion `$`: the end of the string -/
  | eol
  /-- concatenation -/
  | seq (a b : QRegExp)
  /-- alternation `a|b` -/
  | alt (a b : QRegExp)
  /-- repetition `a*` -/
  | star (a : QRegExp)

/-- Comparison of a pattern character with an input character; with `ci` both are
lower-cased first (`Qt::CaseInsensitive`). -/
def QRegExp.charEq (ci : Bool) (a b : Nat) : Bool :=
  if ci then QChar.toLower a == QChar.toLower b else a == b

/-- Positions reachable from `p` by repeating `step`; only iterations that consume input
are repeated, so `fuel` = number of remaining characters suffices. -/
def QRegExp.closure (step : Nat → List Nat) : Nat → Nat → List Nat
  | 0, p => [p]
  | fuel + 1, p => p :: ((step p).filter (fun q => p < q)).flatMap (closure step fuel)

/-- Every position at which a match of the pattern that starts at position `p` of `s`
can end. -/
def QRegExp.ends (ci : Bool) (s : QString) : QRegExp → Nat → List Nat
  | .chr c, p =>
    match s[p]? with
    | some d => if QRegExp.charEq ci c d then [p + 1] else []
    | none => []
  | .any, p => if p < s.length then [p + 1] else []
  | .bol, p => if p = 0 then [p] else []
  | .eol, p => if p = s.length then [p] else []
  | .seq a b, p => (ends ci s a p).flatMap (fun q => ends ci s b q)
  | .alt a b, p => ends ci s a p ++ ends ci s b p
  | .star a, p => QRegExp.closure (fun q => ends ci s a q) (s.length - p) p

/-- The call `QString::indexOf(rx, start, cs)` as `ProjectItems::scan` writes it: the
first position at or after `start` at which the pattern matches, or `-1`; `ci` is the
argument `Qt::CaseInsensitive`. -/
def QString.indexOf (self : QString) (rx : QRegExp) (start : Nat) (ci : Bool) : Int :=
  match (List.range (self.length + 1)).find?
      (fun p => decide (start ≤ p) && !(rx.ends ci self p).isEmpty) with
  | some p => (p : Int)
  | none => -1

/-! ## File system -/

/-- An entry of a directory: a regular file, a directory with its entries, or a special
file (device, FIFO, socket: neither `isFile()` nor `isDir()`). `hidden` is
`QFileInfo::isHidden()`; `readable` tells whether the directory can be enumerated. The
pseudo-entries `.` and `..` are not entries of the tree. -/
inductive Entry where
  | file (name : QString) (hidden : Bool)
  | special (name : QString) (hidden : Bool)
  | dir (name : QString) (hidden : Bool) (readable : Bool) (children : List Entry)

/-- The file name of an entry. -/
def Entry.name : Entry → QString
  | .file n _ => n
  | .special n _ => n
  | .dir n _ _ _ => n

/-- The call `QFileInfo::isDir()`. -/
def Entry.isDir : Entry → Bool
  | .dir _ _ _ _ => true
  | _ => false

/-- The absolute path of the entry `name` of the directory `dir`: a separator is added
unless `dir` already ends with one (the root directory). -/
def QDir.filePath (dir name : QString) : QString :=
  if dir.getLast? = some 47 then dir ++ name else dir ++ [47] ++ name

/-- The absolute path `/e1/e2/...` of the directory with the given path elements. -/
def QDir.absolutePath (elements : List QString) : QString :=
  47 :: [47].intercalate elements

/-- A name a directory entry can have: not empty, without separator, neither `.` nor `..`. -/
def validName (n : QString) : Bool :=
  !n.isEmpty && !n.contains 47 && n != [46] && n != [46, 46]

/-- The call `QDir::relativeFilePath(fileName)` for the directory at the absolute path
`dir`. `QDir::cleanPath`, which Qt applies to both paths first, is the identity on
paths without empty, `.` or `..` elements and is left out. -/
def QDir.relativeFilePath (dir fileName : QString) : QString :=
  if fileName.head? != some 47 || dir.head? != some 47 then fileName
  else
    let dirElts := dir.splitSkipEmpty
    let fileElts := fileName.splitSkipEmpty
    let i := ((dirElts.zip fileElts).takeWhile (fun de => de.1 == de.2)).length
    let result := (List.replicate (dirElts.length - i) (qstr "../")).flatten
    result ++ [47].intercalate (fileElts.drop i)

/-! ## ProjectItems -/

/-- The member `m_headerExpression`: the pattern `^.*\.(h|hpp)$`. -/
def headerExpression : QRegExp :=
  .seq .bol (.seq (.star .any) (.seq (.chr 46)
    (.seq (.alt (.chr 104) (.seq (.chr 104) (.seq (.chr 112) (.chr 112)))) .eol)))

/-- The member `m_sourceExpression`: the pattern `^.*\.(c|cpp)$`. -/
def sourceExpression : QRegExp :=
  .seq .bol (.seq (.star .any) (.seq (.chr 46)
    (.seq (.alt (.chr 99) (.seq (.chr 99) (.seq (.chr 112) (.chr 112)))) .eol)))

/-- The two kinds of project file. -/
inductive FileKind where
  | Header
  | Source
deriving DecidableEq, Repr

/-- The state of a `ProjectItems` object. -/
structure ProjectItems where
  m_headerFiles : List QString
  m_sourceFiles : List QString
deriving DecidableEq, Repr

/-- The accessor `ProjectItems::headerFiles()`. -/
def ProjectItems.headerFiles (self : ProjectItems) : List QString := self.m_headerFiles

/-- The accessor `ProjectItems::sourceFiles()`. -/
def ProjectItems.sourceFiles (self : ProjectItems) : List QString := self.m_sourceFiles

/-- The classification of the name of a non-directory entry by the `else if` chain of
`ProjectItems::scan` (lines 66 to 73). -/
def ProjectItems.classify (fileName : QString) : Option FileKind :=
  if fileName.indexOf headerExpression 0 true == 0 then some FileKind.Header
  else if fileName.indexOf sourceExpression 0 true == 0 then some FileKind.Source
  else none

/-- The two `sort()` calls that end `ProjectItems::scan`. -/
def ProjectItems.sorted (self : ProjectItems) : ProjectItems :=
  { m_headerFiles := QStringList.sort self.m_headerFiles,
    m_sourceFiles := QStringList.sort self.m_sourceFiles }

mutual
/-- One iteration of the `foreach` loop of `ProjectItems::scan` in the directory `path`.
The filter `QDir::NoDotAndDotDot | QDir::AllEntries` lists directories and files but,
lacking `QDir::Hidden` and `QDir::System`, neither hidden entries nor special files: for
those the loop body does not run. For a directory the body is the recursive call
`scan(QDir(fi.absoluteFilePath()), false)`, which is unfolded here: enumeration (empty
when the directory cannot be read), the loop, the two sorts. -/
def ProjectItems.scanEntry (path : QString) : Entry → ProjectItems → ProjectItems
  | .file name hidden, self =>
    if hidden then self
    else if name.indexOf headerExpression 0 true == 0 then
      { self with m_headerFiles := self.m_headerFiles ++ [QDir.filePath path name] }
    else if name.indexOf sourceExpression 0 true == 0 then
      { self with m_sourceFiles := self.m_sourceFiles ++ [QDir.filePath path name] }
    else self
  | .special _ _, self => self
  | .dir name hidden readable children, self =>
    if hidden then self
    else if readable then
      (ProjectItems.scanLoop (QDir.filePath path name) children self).sorted
    else self.sorted
/-- The `foreach` loop of `ProjectItems::scan` over the entries of the directory `path`. -/
def ProjectItems.scanLoop (path : QString) : List Entry → ProjectItems → ProjectItems
  | [], self => self
  | fi :: rest, self => ProjectItems.scanLoop path rest (ProjectItems.scanEntry path fi self)
end

/-- The method `ProjectItems::scan(path, clear)` for the directory at the absolute path
`path` whose entries on disk are `children`. -/
def ProjectItems.scan (self : ProjectItems) (path : QString) (readable : Bool)
    (children : List Entry) (clear : Bool) : ProjectItems :=
  let self1 := if clear then { m_headerFiles := [], m_sourceFiles := [] } else self
  if readable then (ProjectItems.scanLoop path children self1).sorted else self1.sorted

/-! ## Project -/

/-- What `main` can observe of the file system. -/
structure FileSystem where
  /-- the result of `QFileInfo(name).absoluteFilePath()` -/
  absoluteFilePath : QString → QString
  /-- the path of `QFileInfo(name).absoluteDir()` -/
  absoluteDir : QString → QString
  /-- the result of `QDir(path).exists()` -/
  dirExists : QString → Bool
  /-- whether the directory at `path` can be enumerated -/
  readable : QString → Bool
  /-- the entries of the directory at `path` -/
  entries : QString → List Entry
  /-- whether `QFile(path).open(QIODevice::WriteOnly)` succeeds -/
  canOpen : QString → Bool

/-- An observable action of the program on the file system. -/
inductive Effect where
  /-- the directory tree below `root` was traversed -/
  | scanned (root : QString)
  /-- an attempt to open `file` for writing, and whether it succeeded -/
  | opened (file : QString) (ok : Bool)
  /-- the text written to `file` -/
  | written (file : QString) (text : QString)
deriving DecidableEq, Repr

/-- The state of a `Project` object. -/
structure Project where
  m_project : ProjectItems
  m_outputFileName : QString
  m_projectRoot : QString

/-- The constructor `Project()`. -/
def Project.new : Project :=
  { m_project := { m_headerFiles := [], m_sourceFiles := [] },
    m_outputFileName := [], m_projectRoot := [] }

/-- The method `Project::setOutputFileName`. -/
def Project.setOutputFileName (self : Project) (fileName : QString) : Project :=
  { self with m_outputFileName := fileName }

/-- The method `Project::enumerateItems`: always returns `true`. -/
def Project.enumerateItems (self : Project) (fs : FileSystem) (projectRoot : QString) :
    Bool × Project :=
  (true, { self with
    m_projectRoot := projectRoot,
    m_project := self.m_project.scan projectRoot (fs.readable projectRoot)
      (fs.entries projectRoot) true })

/-- The manipulator `endl`: a newline. -/
def endl : QString := [10]

/-- The text streamed to `out` by `Project::generateProject` (lines 147 to 161); the
stream is the accumulated text, `<<` appends. -/
def Project.streamText (self : Project) : QString :=
  let out : QString := []
  let out := out ++ qstr "TEMPLATE = app" ++ endl
  let out := out ++ endl
  let out := out ++ qstr "HEADERS ="
  let out := self.m_project.headerFiles.foldl
    (fun out headerFile =>
      out ++ qstr " \\" ++ endl ++ qstr "  " ++ QDir.relativeFilePath self.m_projectRoot headerFile)
    out
  let out := out ++ endl
  let out := out ++ endl
  let out := out ++ qstr "SOURCES ="
  let out := self.m_project.sourceFiles.foldl
    (fun out sourceFile =>
      out ++ qstr " \\" ++ endl ++ qstr "  " ++ QDir.relativeFilePath self.m_projectRoot sourceFile)
    out
  let out := out ++ endl
  out

/-- The method `Project::generateProject`: the result and the effects on the file system. -/
def Project.generateProject (self : Project) (fs : FileSystem) : Bool × List Effect :=
  if !fs.canOpen self.m_outputFileName then
    (false, [Effect.opened self.m_outputFileName false])
  else
    (true, [Effect.opened self.m_outputFileName true,
            Effect.written self.m_outputFileName self.streamText])

/-! ## Options -/

/-- The class `Option`: a name and a value; the value of a flag is the null string. -/
structure CliOption where
  name : QString
  value : Option QString
deriving DecidableEq, Repr

/-- The state of an `Options` object. -/
structure Options where
  m_options : List CliOption
deriving DecidableEq, Repr

/-- The method `Options::addFlag`. -/
def Options.addFlag (self : Options) (name : QString) : Options :=
  { m_options := self.m_options ++ [{ name := name, value := none }] }

/-- The method `Options::addValue`. -/
def Options.addValue (self : Options) (value : QString) : Options :=
  { m_options := self.m_options ++ [{ name := [], value := some value }] }

/-- The method `Options::addOption`. -/
def Options.addOption (self : Options) (name value : QString) : Options :=
  { m_options := self.m_options ++ [{ name := name, value := some value }] }

/-- The `while` loop of the constructor `Options::Options` with loop variable `i`; `none`
when the fuel runs out before the loop condition fails. -/
def Options.loop (args : List QString) : Nat → Nat → Options → Option Options
  | 0, i, self => if i < args.length then none else some self
  | fuel + 1, i, self =>
    if i < args.length then
      if (args.getD i []).startsWith (qstr "--") then
        if i < args.length - 1 then
          if (args.getD (i + 1) []).startsWith (qstr "--") then
            Options.loop args fuel (i + 1) (self.addFlag (args.getD i []))
          else
            Options.loop args fuel (i + 2) (self.addOption (args.getD i []) (args.getD (i + 1) []))
        else
          Options.loop args fuel (i + 1) (self.addFlag (args.getD i []))
      else
        Options.loop args fuel (i + 1) (self.addValue (args.getD i []))
    else some self

/-- The constructor `Options::Options(argc, argv)`; `argv` lists the `argc` arguments. -/
def Options.new (argv : List QString) : Option Options :=
  Options.loop argv argv.length 1 { m_options := [] }

/-- The method `Options::options(name)`. -/
def Options.options (self : Options) (name : QString) : List CliOption :=
  self.m_options.foldl
    (fun result option => if option.name == name then result ++ [option] else result) []

/-- The method `Options::present`. -/
def Options.present (self : Options) (name : QString) : Bool :=
  self.m_options.any (fun option => option.name == name)

/-- The method `Options::value(name, index)`. The outer `none` is an access outside the
list (`QList::last()` of an empty list, `operator[]` with an invalid index); the inner
`none` is the null string. -/
def Options.value (self : Options) (name : QString) (index : Int) : Option (Option QString) :=
  let values := self.options name
  if values.length = 0 ∧ (index ≥ values.length ∨ index < 0) then some none
  else if index = -1 then values.getLast?.map (fun option => option.value)
  else if 0 ≤ index then values[index.toNat]?.map (fun option => option.value)
  else none

/-! ## main -/

/-- The function `main`: the return code and the effects on the file system; `none` when
the program does not reach a `return`. -/
def main (fs : FileSystem) (argv : List QString) : Option (Int × List Effect) :=
  match Options.new argv with
  | none => none
  | some options =>
    match options.value [] (-1) with
    | none => none
    | some none => some (-1, [])
    | some (some outputFileName0) =>
      let outputFileName := fs.absoluteFilePath outputFileName0
      let projectRoot := fs.absoluteDir outputFileName0
      if !fs.dirExists projectRoot then some (-1, [])
      else
        let project := Project.new.setOutputFileName outputFileName
        let (ok, project) := project.enumerateItems fs projectRoot
        if !ok then some (-1, [Effect.scanned projectRoot])
        else
          let (ok, effects) := project.generateProject fs
          if !ok then some (-1, Effect.scanned projectRoot :: effects)
          else some (0, Effect.scanned projectRoot :: effects)

/-! ## The entries of a directory tree -/

/-- An entry of a directory tree with its absolute path and with `names`, the file names
on the way from the root directory down to the entry. `enumerated` tells whether the
entry is a file or directory that is not hidden and lies in a directory that the
traversal enters and can read: the root if it is readable, and below it the readable
directories that are not hidden. -/
structure Node where
  path : QString
  names : List QString
  name : QString
  isDir : Bool
  isFile : Bool
  enumerated : Bool
deriving DecidableEq, Repr

mutual
/-- The entry `e` of the directory `path` and all entries below it; `rel` lists the names
from the root directory down to the directory `path`, and `visible` tells whether the
traversal enters and can read the directory `path`. -/
def Entry.nodes (path : QString) (rel : List QString) (visible : Bool) : Entry → List Node
  | .file n h =>
    [{ path := QDir.filePath path n, names := rel ++ [n], name := n, isDir := false,
       isFile := true, enumerated := visible && !h }]
  | .special n _ =>
    [{ path := QDir.filePath path n, names := rel ++ [n], name := n, isDir := false,
       isFile := false, enumerated := false }]
  | .dir n h r cs =>
    { path := QDir.filePath path n, names := rel ++ [n], name := n, isDir := true,
      isFile := false, enumerated := visible && !h } ::
      Entry.nodesList (QDir.filePath path n) (rel ++ [n]) (visible && !h && r) cs
/-- All entries below the directory `path` whose entries are the given list. -/
def Entry.nodesList (path : QString) (rel : List QString) (visible : Bool) :
    List Entry → List Node
  | [] => []
  | e :: rest => Entry.nodes path rel visible e ++ Entry.nodesList path rel visible rest
end

/-- The paths of the enumerated regular files among `nodes` whose name is classified as
`kind`, in the order of `nodes`. -/
def Node.found (kind : FileKind) (nodes : List Node) : List QString :=
  (nodes.filter (fun nd =>
    nd.isFile && nd.enumerated && decide (ProjectItems.classify nd.name = some kind))).map
    (fun nd => nd.path)

mutual
/-- Names are valid and sibling names are unique, in the entry and below it. -/
def Entry.wellFormed : Entry → Bool
  | .file n _ => validName n
  | .special n _ => validName n
  | .dir n _ _ cs =>
    validName n && Entry.wellFormedList cs && decide ((cs.map Entry.name).Nodup)
/-- Every entry of the list is well formed. -/
def Entry.wellFormedList : List Entry → Bool
  | [] => true
  | e :: rest => Entry.wellFormed e && Entry.wellFormedList rest
end

/-- A directory tree: the entries of the root directory, with valid and unique sibling
names throughout. -/
def Entry.tree (children : List Entry) : Bool :=
  Entry.wellFormedList children && decide ((children.map Entry.name).Nodup)

/-- The directory part of the paths of the entries of `dir`. -/
def QDir.entryBase (dir : QString) : QString :=
  if dir.getLast? = some 47 then dir else dir ++ [47]

/-- A tree with entries the traversal does not enumerate. -/
def sampleFiltered : List Entry :=
  [Entry.file (qstr ".a.h") true, Entry.special (qstr "fifo.h") false,
   Entry.dir (qstr "locked") false false [Entry.file (qstr "b.h") false],
   Entry.dir (qstr ".git") true true [Entry.file (qstr "c.cpp") false],
   Entry.file (qstr "ok.h") false]

/-- The scenario of the specification: `a.h`, `sub/b.cpp`, `sub/unrelated.txt`, and a
directory whose name ends in `.h`. -/
def sampleScenario : List Entry :=
  [Entry.file (qstr "a.h") false,
   Entry.dir (qstr "sub") false true
     [Entry.file (qstr "b.cpp") false, Entry.file (qstr "unrelated.txt") false],
   Entry.dir (qstr "inc.h") false true [Entry.file (qstr "README.md") false]]

/-- A tree whose enumeration order is not the sorted order. -/
def sampleUnsorted : List Entry :=
  [Entry.file (qstr "z.h") false,
   Entry.dir (qstr "m") false true [Entry.file (qstr "y.h") false, Entry.file (qstr "b.h") false],
   Entry.file (qstr "a.h") false, Entry.file (qstr "k.c") false, Entry.file (qstr "K.c") false]

/-- The text of one block as the specification words it: the keyword, then for each file
in list order a continuation marker, a newline, two spaces and the root-relative path. -/
def Spec.block (keyword root : QString) (files : List QString) : QString :=
  keyword ++ files.flatMap
    (fun file => qstr " \\" ++ [10] ++ qstr "  " ++ QDir.relativeFilePath root file)

/-- The project text as the specification words it. -/
def Spec.projectText (root : QString) (headers sources : List QString) : QString :=
  qstr "TEMPLATE = app" ++ [10] ++ [10] ++ Spec.block (qstr "HEADERS =") root headers ++ [10] ++
    [10] ++ Spec.block (qstr "SOURCES =") root sources ++ [10]

/-- A project with two headers and one source below `/r`. -/
def sampleProject : Project :=
  { m_project := { m_headerFiles := [qstr "/r/a.h", qstr "/r/sub/b.h"],
                   m_sourceFiles := [qstr "/r/m.cpp"] },
    m_outputFileName := qstr "/r/out.pro", m_projectRoot := qstr "/r" }

/-- A file system in which every directory exists and is empty and every file can be
opened; file names are taken to be absolute already, in the directory `/r`. -/
def sampleFileSystem : FileSystem :=
  { absoluteFilePath := fun name => name, absoluteDir := fun _ => qstr "/r",
    dirExists := fun _ => true, readable := fun _ => true, entries := fun _ => [],
    canOpen := fun _ => true }

/-- A file system whose directory `/` holds the directory `sub` with the file `a.h`; the
same entries are reported for every path. -/
def sampleRootFileSystem : FileSystem :=
  { absoluteFilePath := fun name => name, absoluteDir := fun _ => qstr "/",
    dirExists := fun _ => true, readable := fun _ => true,
    entries := fun _ => [Entry.dir (qstr "sub") false true [Entry.file (qstr "a.h") false]],
    canOpen := fun _ => true }

/-- Two file systems that enumerate the same tree in different orders. -/
def sampleOrderA : FileSystem :=
  { absoluteFilePath := fun name => qstr "/r/" ++ name, absoluteDir := fun _ => qstr "/r",
    dirExists := fun _ => true, readable := fun _ => true,
    entries := fun _ =>
      [Entry.file (qstr "b.h") false,
       Entry.dir (qstr "sub") false true
         [Entry.file (qstr "y.c") false, Entry.file (qstr "x.c") false],
       Entry.file (qstr "a.h") false],
    canOpen := fun _ => true }

/-- The tree of `sampleOrderA`, enumerated in another order. -/
def sampleOrderB : FileSystem :=
  { absoluteFilePath := fun name => qstr "/r/" ++ name, absoluteDir := fun _ => qstr "/r",
    dirExists := fun _ => true, readable := fun _ => true,
    entries := fun _ =>
      [Entry.dir (qstr "sub") false true
         [Entry.file (qstr "x.c") false, Entry.file (qstr "y.c") false],
       Entry.file (qstr "b.h") false,
       Entry.file (qstr "a.h") false],
    canOpen := fun _ => true }

/-- The parse of the tokens after `argv[0]` as the documentation of `Options` words it:
`--name value` is a named option, `--name` followed by another `--...` or by nothing is a
flag without value, any other token is a value with the empty name. -/
def Spec.parseTokens : List QString → List CliOption
  | [] => []
  | [t] =>
    if t.startsWith (qstr "--") then [{ name := t, value := none }]
    else [{ name := [], value := some t }]
  | t :: u :: rest =>
    if t.startsWith (qstr "--") then
      if u.startsWith (qstr "--") then
        { name := t, value := none } :: Spec.parseTokens (u :: rest)
      else { name := t, value := some u } :: Spec.parseTokens rest
    else { name := [], value := some t } :: Spec.parseTokens (u :: rest)

/-- The positional values among the tokens after `argv[0]`: the tokens that do not start
with `--` and do not directly follow a token that starts with `--`; `afterName` tells
whether the previous token starts with `--`. -/
def Spec.positionals (afterName : Bool) : List QString → List QString
  | [] => []
  | t :: rest =>
    if t.startsWith (qstr "--") then Spec.positionals true rest
    else if afterName then Spec.positionals false rest
    else t :: Spec.positionals false rest

/-- The positional values of an argument vector. -/
def Spec.positionalValues (argv : List QString) : List QString :=
  Spec.positionals false (argv.drop 1)

/-! ## Enumeration orders -/

mutual
/-- The entry is the same up to the order in which directories enumerate their entries. -/
inductive Entry.Reordered : Entry → Entry → Prop
  | file (n : QString) (h : Bool) : Entry.Reordered (.file n h) (.file n h)
  | special (n : QString) (h : Bool) : Entry.Reordered (.special n h) (.special n h)
  | dir (n : QString) (h r : Bool) {cs cs2 : List Entry} :
    Entry.ReorderedList cs cs2 → Entry.Reordered (.dir n h r cs) (.dir n h r cs2)
/-- The second list enumerates the entries of the first in another order, each entry
being reordered below in turn. -/
inductive Entry.ReorderedList : List Entry → List Entry → Prop
  | nil : Entry.ReorderedList [] []
  | cons {e e2 : Entry} {l l2 : List Entry} :
    Entry.Reordered e e2 → Entry.ReorderedList l l2 → Entry.ReorderedList (e :: l) (e2 :: l2)
  | swap (e1 e2 : Entry) (l : List Entry) : Entry.ReorderedList (e1 :: e2 :: l) (e2 :: e1 :: l)
  | trans {a b c : List Entry} :
    Entry.ReorderedList a b → Entry.ReorderedList b c → Entry.ReorderedList a c
end

/-! ## Further reference definitions and samples -/

/-- A file system without the directory of the output file. -/
def sampleNoDirectory : FileSystem :=
  { absoluteFilePath := fun name => qstr "/missing/" ++ name,
    absoluteDir := fun _ => qstr "/missing",
    dirExists := fun _ => false, readable := fun _ => false, entries := fun _ => [],
    canOpen := fun _ => false }

/-- A file system in which the directory `/r` holds `a.h` and no file can be opened for
writing. -/
def sampleReadOnly : FileSystem :=
  { absoluteFilePath := fun name => qstr "/r/" ++ name, absoluteDir := fun _ => qstr "/r",
    dirExists := fun _ => true, readable := fun _ => true,
    entries := fun _ => [Entry.file (qstr "a.h") false],
    canOpen := fun _ => false }

/-- The options of the command line `qpfg --bob x`. -/
def sampleBob : Options :=
  { m_options := [{ name := qstr "--bob", value := some (qstr "x") }] }

/-- The options of the command line `qpfg --bob x y --bob z --flag w`. -/
def sampleRepeated : Options :=
  { m_options :=
      [{ name := qstr "--bob", value := some (qstr "x") }, { name := [], value := some (qstr "y") },
       { name := qstr "--bob", value := some (qstr "z") }, { name := qstr "--flag", value := some (qstr "w") }] }

/-- The constructor `ProjectItems()`: both lists are empty. -/
def ProjectItems.new : ProjectItems := { m_headerFiles := [], m_sourceFiles := [] }

mutual
/-- The reference traversal of the specification for one enumerated entry: a directory
is descended into, the path of a file is appended to the collection of its kind, and
nothing is sorted. -/
def Spec.collectEntry (path : QString) : Entry → ProjectItems → ProjectItems
  | .file name hidden, acc =>
    if hidden then acc
    else match ProjectItems.classify name with
      | some FileKind.Header =>
        { acc with m_headerFiles := acc.m_headerFiles ++ [QDir.filePath path name] }
      | some FileKind.Source =>
        { acc with m_sourceFiles := acc.m_sourceFiles ++ [QDir.filePath path name] }
      | none => acc
  | .special _ _, acc => acc
  | .dir name hidden readable children, acc =>
    if hidden then acc
    else if readable then Spec.collectLoop (QDir.filePath path name) children acc
    else acc
/-- The reference traversal over the entries of a directory, in enumeration order. -/
def Spec.collectLoop (path : QString) : List Entry → ProjectItems → ProjectItems
  | [], acc => acc
  | e :: rest, acc => Spec.collectLoop path rest (Spec.collectEntry path e acc)
end

/-- The reference procedure of the specification: traverse the whole tree, accumulate
the matches, then sort each collection once. -/
def Spec.scanOnce (path : QString) (readable : Bool) (children : List Entry) : ProjectItems :=
  { m_headerFiles := QStringList.sort
      (if readable then Spec.collectLoop path children ProjectItems.new
        else ProjectItems.new).m_headerFiles,
    m_sourceFiles := QStringList.sort
      (if readable then Spec.collectLoop path children ProjectItems.new
        else ProjectItems.new).m_sourceFiles }

/-- The shape of a parsed entry that the documentation of `Options` promises: a named
entry has a name that starts with `--` and a value that is null or does not start with
`--`; an entry with the empty name has a value, which does not start with `--`. -/
def Spec.entryShape (option : CliOption) : Bool :=
  if option.name.isEmpty then
    match option.value with
    | none => false
    | some v => !v.startsWith (qstr "--")
  else
    option.name.startsWith (qstr "--") &&
      match option.value with
      | none => true
      | some v => !v.startsWith (qstr "--")

/-- The tokens an entry stands for: the value alone when the name is empty, the name
alone when the value is null, the name and the value otherwise. -/
def Spec.tokensOf (option : CliOption) : List QString :=
  if option.name.isEmpty then
    match option.value with
    | none => []
    | some v => [v]
  else
    match option.value with
    | none => [option.name]
    | some v => [option.name, v]

/-- A file system whose directory `/r` holds `a.h`, the directory `a` with `x.h`, and
`b.cpp`. -/
def sampleNested : FileSystem :=
  { absoluteFilePath := fun name => qstr "/r/" ++ name, absoluteDir := fun _ => qstr "/r",
    dirExists := fun _ => true, readable := fun _ => true,
    entries := fun _ =>
      [Entry.dir (qstr "a") false true [Entry.file (qstr "x.h") false],
       Entry.file (qstr "a.h") false, Entry.file (qstr "b.cpp") false],
    canOpen := fun _ => true }

/-- The continuation marker: a space and a backslash. -/
def Spec.marker : QString := qstr " \\"

/-- The lines of a block whose current, still open line is `line` and whose remaining
rendered paths are `paths`: every path closes the open line with the continuation marker
and opens an entry line, two spaces and the path; the last open line stays as it is. -/
def Spec.blockLines (line : QString) : List QString → List QString
  | [] => [line]
  | p :: paths => (line ++ Spec.marker) :: Spec.blockLines (qstr "  " ++ p) paths

/-- The lines of the project text for the rendered header and source paths. -/
def Spec.projectLines (headers sources : List QString) : List QString :=
  [qstr "TEMPLATE = app", []] ++ Spec.blockLines (qstr "HEADERS =") headers ++ [[]] ++
    Spec.blockLines (qstr "SOURCES =") sources

/-- The text made of the given lines, each terminated by a newline. -/
def Spec.unlines (lines : List QString) : QString :=
  lines.flatMap (fun line => line ++ [10])

/-- An entry line for one of the rendered paths: two spaces and the path, with or without
the continuation marker. -/
def Spec.IsEntryLine (paths : List QString) (line : QString) : Prop :=
  ∃ p ∈ paths, line = qstr "  " ++ p ∨ line = qstr "  " ++ p ++ Spec.marker

/-- The root-relative paths that `Project::generateProject` writes in the `HEADERS`
block. -/
def Project.renderedHeaders (self : Project) : List QString :=
  self.m_project.headerFiles.map (QDir.relativeFilePath self.m_projectRoot)

/-- The root-relative paths that `Project::generateProject` writes in the `SOURCES`
block. -/
def Project.renderedSources (self : Project) : List QString :=
  self.m_project.sourceFiles.map (QDir.relativeFilePath self.m_projectRoot)

instance Spec.IsEntryLine.decidable (paths : List QString) (line : QString) :
    Decidable (Spec.IsEntryLine paths line) :=
  inferInstanceAs
    (Decidable (∃ p ∈ paths, line = qstr "  " ++ p ∨ line = qstr "  " ++ p ++ Spec.marker))

/-- The project after `Project::enumerateItems` for the root directory with the given
path elements. -/
def Project.enumerated (self : Project) (fs : FileSystem) (rootElements : List QString) :
    Project :=
  (self.enumerateItems fs (QDir.absolutePath rootElements)).2

/-! # Theorems -/

/-! ## The regular expression matcher -/

theorem QRegExp.mem_closure_any (ci : Bool) (s : QString) (r : Nat) :
    ∀ (fuel p : Nat), fuel = s.length - p → p ≤ s.length →
      (r ∈ QRegExp.closure (fun q => QRegExp.ends ci s QRegExp.any q) fuel p ↔ p ≤ r ∧ r ≤ s.length) := by
  intro fuel
  induction fuel with
  | zero =>
    intro p hf hp
    simp only [QRegExp.closure, List.mem_singleton]
    omega
  | succ k ih =>
    intro p hf hp
    have hlt : p < s.length := by omega
    have hstep : QRegExp.ends ci s QRegExp.any p = [p + 1] := by simp [QRegExp.ends, hlt]
    have hfil : List.filter (fun q => decide (p < q)) [p + 1] = [p + 1] := by simp
    rw [QRegExp.closure]
    simp only [hstep, hfil, List.flatMap_cons, List.flatMap_nil, List.append_nil, List.mem_cons]
    rw [ih (p + 1) (by omega) (by omega)]
    omega

theorem QString.indexOf_eq_zero_iff (s : QString) (rx : QRegExp) (ci : Bool) :
    s.indexOf rx 0 ci = 0 ↔ rx.ends ci s 0 ≠ [] := by
  unfold QString.indexOf
  rw [List.range_succ_eq_map, List.find?_cons]
  by_cases h : rx.ends ci s 0 = []
  · have hp : (decide (0 ≤ 0) && !(QRegExp.ends ci s rx 0).isEmpty) = false := by simp [h]
    rw [hp]
    simp only [h, ne_eq, not_true_eq_false, iff_false]
    split
    · rename_i p hf
      have hm := List.mem_of_find?_eq_some hf
      rw [List.mem_map] at hm
      obtain ⟨a, _, rfl⟩ := hm
      intro hc
      have : (a.succ : Int) = (a : Int) + 1 := by push_cast; rfl
      omega
    · decide
  · have hp : (decide (0 ≤ 0) && !(QRegExp.ends ci s rx 0).isEmpty) = true := by
      cases hh : QRegExp.ends ci s rx 0 with
      | nil => exact absurd hh h
      | cons _ _ => rfl
    rw [hp]
    simp [h]

theorem QRegExp.mem_ends_chr (s : QString) (c p r : Nat) :
    r ∈ QRegExp.ends true s (QRegExp.chr c) p ↔
      r = p + 1 ∧ (s.map QChar.toLower)[p]? = some (QChar.toLower c) := by
  simp only [QRegExp.ends, QRegExp.charEq, if_true, List.getElem?_map]
  cases hs : s[p]? with
  | none => simp
  | some d =>
    by_cases hd : QChar.toLower c = QChar.toLower d
    · simp [hd]
    · simp [hd]
      intro _ h
      exact hd h.symm

theorem List.suffix_iff_getElem (w l : List Nat) :
    w <:+ l ↔ ∃ p, p + w.length = l.length ∧ ∀ i, i < w.length → l[p + i]? = w[i]? := by
  constructor
  · intro h
    have hlen := h.length_le
    refine ⟨l.length - w.length, by omega, ?_⟩
    intro i _
    rw [List.suffix_iff_eq_drop] at h
    conv_rhs => rw [h]
    rw [List.getElem?_drop]
  · rintro ⟨p, hp, h⟩
    have : w = l.drop p := by
      apply List.ext_getElem?
      intro i
      rw [List.getElem?_drop]
      by_cases hi : i < w.length
      · exact (h i hi).symm
      · rw [List.getElem?_eq_none (by omega), List.getElem?_eq_none (by omega)]
    rw [this]
    exact List.drop_suffix p l

/-- The shape shared by the two patterns of `ProjectItems`: `^.*\.(x|xyy)$`. -/
theorem QRegExp.ends_extension (s : QString) (x y : Nat) :
    QRegExp.ends true s
      (.seq .bol (.seq (.star .any) (.seq (.chr 46)
        (.seq (.alt (.chr x) (.seq (.chr x) (.seq (.chr y) (.chr y)))) .eol)))) 0 ≠ [] ↔
      ([46, QChar.toLower x] <:+ s.map QChar.toLower ∨
       [46, QChar.toLower x, QChar.toLower y, QChar.toLower y] <:+ s.map QChar.toLower) := by
  have hne : ∀ l : List Nat, l ≠ [] ↔ ∃ r, r ∈ l :=
    fun l => ⟨List.exists_mem_of_ne_nil l, fun ⟨_, h⟩ => List.ne_nil_of_mem h⟩
  rw [hne]
  have h46 : QChar.toLower 46 = 46 := by decide
  constructor
  · rintro ⟨r, hr⟩
    rw [QRegExp.ends, List.mem_flatMap] at hr
    obtain ⟨q0, hq0, hr⟩ := hr
    have hq0' : q0 = 0 := by simpa [QRegExp.ends] using hq0
    subst hq0'
    rw [QRegExp.ends, List.mem_flatMap] at hr
    obtain ⟨q1, hq1, hr⟩ := hr
    rw [QRegExp.ends, QRegExp.mem_closure_any true s q1 _ 0 rfl (Nat.zero_le _)] at hq1
    rw [QRegExp.ends, List.mem_flatMap] at hr
    obtain ⟨q2, hq2, hr⟩ := hr
    rw [QRegExp.mem_ends_chr, h46] at hq2
    obtain ⟨rfl, hdot⟩ := hq2
    rw [QRegExp.ends, List.mem_flatMap] at hr
    obtain ⟨q3, hq3, hr⟩ := hr
    have hend : q3 = s.length := by
      simp only [QRegExp.ends] at hr
      split at hr
      · assumption
      · simp at hr
    rw [QRegExp.ends, List.mem_append] at hq3
    rcases hq3 with hq3 | hq3
    · left
      rw [QRegExp.mem_ends_chr] at hq3
      rw [List.suffix_iff_getElem]
      refine ⟨q1, by simp; omega, ?_⟩
      intro i hi
      have : i = 0 ∨ i = 1 := by simp at hi; omega
      rcases this with rfl | rfl
      · simpa using hdot
      · simpa using hq3.2
    · right
      rw [QRegExp.ends, List.mem_flatMap] at hq3
      obtain ⟨q4, hq4, hq3⟩ := hq3
      rw [QRegExp.mem_ends_chr] at hq4
      obtain ⟨rfl, hx⟩ := hq4
      rw [QRegExp.ends, List.mem_flatMap] at hq3
      obtain ⟨q5, hq5, hq3⟩ := hq3
      rw [QRegExp.mem_ends_chr] at hq5
      obtain ⟨rfl, hy1⟩ := hq5
      rw [QRegExp.mem_ends_chr] at hq3
      obtain ⟨rfl, hy2⟩ := hq3
      rw [List.suffix_iff_getElem]
      refine ⟨q1, by simp; omega, ?_⟩
      intro i hi
      have : i = 0 ∨ i = 1 ∨ i = 2 ∨ i = 3 := by simp at hi; omega
      rcases this with rfl | rfl | rfl | rfl
      · simpa using hdot
      · simpa using hx
      · simpa using hy1
      · simpa using hy2
  · intro h
    have hstar : ∀ q, q ≤ s.length → q ∈ QRegExp.ends true s (.star .any) 0 := by
      intro q hq
      rw [QRegExp.ends, QRegExp.mem_closure_any true s q _ 0 rfl (Nat.zero_le _)]
      omega
    rcases h with h | h
    · rw [List.suffix_iff_getElem] at h
      obtain ⟨p, hp, h⟩ := h
      simp only [List.length_cons, List.length_nil] at hp
      have h0 := h 0 (by simp)
      have h1 := h 1 (by simp)
      simp only [Nat.add_zero] at h0
      refine ⟨s.length, ?_⟩
      rw [QRegExp.ends, List.mem_flatMap]
      refine ⟨0, by simp [QRegExp.ends], ?_⟩
      rw [QRegExp.ends, List.mem_flatMap]
      refine ⟨p, hstar p (by simp at hp; omega), ?_⟩
      rw [QRegExp.ends, List.mem_flatMap]
      refine ⟨p + 1, by rw [QRegExp.mem_ends_chr, h46]; exact ⟨rfl, by simpa using h0⟩, ?_⟩
      rw [QRegExp.ends, List.mem_flatMap]
      refine ⟨p + 2, ?_, ?_⟩
      · rw [QRegExp.ends, List.mem_append]
        left
        rw [QRegExp.mem_ends_chr]
        exact ⟨rfl, by simpa using h1⟩
      · have : p + 2 = s.length := by simp at hp; omega
        simp [QRegExp.ends, this]
    · rw [List.suffix_iff_getElem] at h
      obtain ⟨p, hp, h⟩ := h
      simp only [List.length_cons, List.length_nil] at hp
      have h0 := h 0 (by simp)
      have h1 := h 1 (by simp)
      have h2 := h 2 (by simp)
      have h3 := h 3 (by simp)
      simp only [Nat.add_zero] at h0
      refine ⟨s.length, ?_⟩
      rw [QRegExp.ends, List.mem_flatMap]
      refine ⟨0, by simp [QRegExp.ends], ?_⟩
      rw [QRegExp.ends, List.mem_flatMap]
      refine ⟨p, hstar p (by simp at hp; omega), ?_⟩
      rw [QRegExp.ends, List.mem_flatMap]
      refine ⟨p + 1, by rw [QRegExp.mem_ends_chr, h46]; exact ⟨rfl, by simpa using h0⟩, ?_⟩
      rw [QRegExp.ends, List.mem_flatMap]
      refine ⟨p + 4, ?_, ?_⟩
      · rw [QRegExp.ends, List.mem_append]
        right
        rw [QRegExp.ends, List.mem_flatMap]
        refine ⟨p + 2, by rw [QRegExp.mem_ends_chr]; exact ⟨rfl, by simpa using h1⟩, ?_⟩
        rw [QRegExp.ends, List.mem_flatMap]
        refine ⟨p + 3, by rw [QRegExp.mem_ends_chr]; exact ⟨rfl, by simpa using h2⟩, ?_⟩
        rw [QRegExp.mem_ends_chr]
        exact ⟨rfl, by simpa using h3⟩
      · have : p + 4 = s.length := by simp at hp; omega
        simp [QRegExp.ends, this]


/-! ## Claims about the classification of file names -/

theorem QString.endsWithCI_iff (s ext : QString) :
    s.endsWithCI ext = true ↔ ext.map QChar.toLower <:+ s.map QChar.toLower := by
  simp [QString.endsWithCI]

theorem headerExpression_match_iff (name : QString) :
    name.indexOf headerExpression 0 true = 0 ↔
      (name.endsWithCI (qstr ".h") = true ∨ name.endsWithCI (qstr ".hpp") = true) := by
  rw [QString.indexOf_eq_zero_iff, headerExpression, QRegExp.ends_extension,
    QString.endsWithCI_iff, QString.endsWithCI_iff]
  exact Iff.rfl

theorem sourceExpression_match_iff (name : QString) :
    name.indexOf sourceExpression 0 true = 0 ↔
      (name.endsWithCI (qstr ".c") = true ∨ name.endsWithCI (qstr ".cpp") = true) := by
  rw [QString.indexOf_eq_zero_iff, sourceExpression, QRegExp.ends_extension,
    QString.endsWithCI_iff, QString.endsWithCI_iff]
  exact Iff.rfl

theorem header_source_disjoint (name : QString)
    (hh : name.endsWithCI (qstr ".h") = true ∨ name.endsWithCI (qstr ".hpp") = true)
    (hs : name.endsWithCI (qstr ".c") = true ∨ name.endsWithCI (qstr ".cpp") = true) : False := by
  simp only [QString.endsWithCI_iff] at hh hs
  rcases hh with hh | hh <;> rcases hs with hs | hs <;>
    rcases List.suffix_or_suffix_of_suffix hh hs with h | h <;>
    exact absurd h (by decide)

theorem classify_header_iff (name : QString) :
    ProjectItems.classify name = some FileKind.Header ↔
      name.indexOf headerExpression 0 true = 0 := by
  unfold ProjectItems.classify
  by_cases h : name.indexOf headerExpression 0 true = 0
  · simp [h]
  · by_cases h2 : name.indexOf sourceExpression 0 true = 0 <;> simp [h, h2]

theorem classify_source_iff (name : QString) :
    ProjectItems.classify name = some FileKind.Source ↔
      name.indexOf sourceExpression 0 true = 0 := by
  unfold ProjectItems.classify
  by_cases h : name.indexOf headerExpression 0 true = 0
  · have hs : ¬ name.indexOf sourceExpression 0 true = 0 := fun hs =>
      header_source_disjoint name ((headerExpression_match_iff name).1 h)
        ((sourceExpression_match_iff name).1 hs)
    simp [h, hs]
  · by_cases h2 : name.indexOf sourceExpression 0 true = 0 <;> simp [h, h2]

/-- C1: the classification used by `ProjectItems::scan` is Header exactly for the names
that end, ignoring letter case, with `.h` or `.hpp`, and Source exactly for the names that
end, ignoring letter case, with `.c` or `.cpp`; the extension has to be the suffix of the
whole name, as the listed sample names show. -/
theorem C1_classify_by_extension :
    (∀ name : QString,
      (ProjectItems.classify name = some FileKind.Header ↔
        (name.endsWithCI (qstr ".h") = true ∨ name.endsWithCI (qstr ".hpp") = true)) ∧
      (ProjectItems.classify name = some FileKind.Source ↔
        (name.endsWithCI (qstr ".c") = true ∨ name.endsWithCI (qstr ".cpp") = true))) ∧
    ProjectItems.classify (qstr "A.H") = ProjectItems.classify (qstr "a.h") ∧
    ProjectItems.classify (qstr "a.h") = some FileKind.Header ∧
    ProjectItems.classify (qstr "b.HPP") = ProjectItems.classify (qstr "b.hpp") ∧
    ProjectItems.classify (qstr "b.hpp") = some FileKind.Header ∧
    ProjectItems.classify (qstr "x.Cpp") = ProjectItems.classify (qstr "x.cpp") ∧
    ProjectItems.classify (qstr "x.cpp") = some FileKind.Source ∧
    ProjectItems.classify (qstr "x.C") = some FileKind.Source ∧
    ProjectItems.classify (qstr "a.h.txt") = none ∧
    ProjectItems.classify (qstr "a.hx") = none ∧
    ProjectItems.classify (qstr "ah") = none := by
  refine ⟨fun name => ⟨?_, ?_⟩, by decide, by decide, by decide, by decide, by decide,
    by decide, by decide, by decide, by decide, by decide⟩
  · rw [classify_header_iff, headerExpression_match_iff]
  · rw [classify_source_iff, sourceExpression_match_iff]

mutual
theorem Entry.nodes_invisible (path : QString) (rel : List QString) :
    ∀ (e : Entry) (nd : Node), nd ∈ Entry.nodes path rel false e → nd.enumerated = false
  | .file n h, nd, hnd => by
    simp only [Entry.nodes, List.mem_singleton] at hnd
    subst hnd; rfl
  | .special n h, nd, hnd => by
    simp only [Entry.nodes, List.mem_singleton] at hnd
    subst hnd; rfl
  | .dir n h r cs, nd, hnd => by
    simp only [Entry.nodes, List.mem_cons] at hnd
    rcases hnd with rfl | hnd
    · rfl
    · exact Entry.nodesList_invisible (QDir.filePath path n) (rel ++ [n]) cs nd (by simpa using hnd)
theorem Entry.nodesList_invisible (path : QString) (rel : List QString) :
    ∀ (cs : List Entry) (nd : Node), nd ∈ Entry.nodesList path rel false cs → nd.enumerated = false
  | [], nd, hnd => by simp [Entry.nodesList] at hnd
  | e :: rest, nd, hnd => by
    simp only [Entry.nodesList, List.mem_append] at hnd
    rcases hnd with hnd | hnd
    · exact Entry.nodes_invisible path rel e nd hnd
    · exact Entry.nodesList_invisible path rel rest nd hnd
end

/-! ## The order of strings and sorting -/

theorem QString.lt_irrefl : ∀ a : QString, QString.lt a a = false
  | [] => rfl
  | x :: xs => by simp [QString.lt, QString.lt_irrefl xs]

theorem QString.lt_trichotomy :
    ∀ a b : QString, QString.lt a b = true ∨ a = b ∨ QString.lt b a = true
  | [], [] => Or.inr (Or.inl rfl)
  | [], _ :: _ => Or.inl rfl
  | _ :: _, [] => Or.inr (Or.inr rfl)
  | x :: xs, y :: ys => by
    rcases Nat.lt_trichotomy x y with h | h | h
    · left; simp [QString.lt, h]
    · subst h
      rcases QString.lt_trichotomy xs ys with h | h | h
      · left; simp [QString.lt, h]
      · right; left; rw [h]
      · right; right; simp [QString.lt, h]
    · right; right; simp [QString.lt, h]

theorem QString.lt_asymm :
    ∀ a b : QString, QString.lt a b = true → QString.lt b a = false
  | [], [], h => by simp [QString.lt] at h
  | [], _ :: _, _ => rfl
  | _ :: _, [], h => by simp [QString.lt] at h
  | x :: xs, y :: ys, h => by
    simp only [QString.lt] at h ⊢
    by_cases h1 : x < y
    · have : ¬ y < x := by omega
      simp [this, h1]
    · by_cases h2 : y < x
      · simp [h1, h2] at h
      · simp only [h1, h2, if_false] at h ⊢
        exact QString.lt_asymm xs ys h

theorem QString.lt_trans :
    ∀ a b c : QString, QString.lt a b = true → QString.lt b c = true → QString.lt a c = true
  | [], [], _, h, _ => by simp [QString.lt] at h
  | [], _ :: _, [], _, h => by simp [QString.lt] at h
  | [], _ :: _, _ :: _, _, _ => rfl
  | _ :: _, [], _, h, _ => by simp [QString.lt] at h
  | _ :: _, _ :: _, [], _, h => by simp [QString.lt] at h
  | x :: xs, y :: ys, z :: zs, h1, h2 => by
    simp only [QString.lt] at h1 h2 ⊢
    by_cases hxy : x < y
    · by_cases hyz : y < z
      · have : x < z := by omega
        simp [this]
      · by_cases hzy : z < y
        · simp [hyz, hzy] at h2
        · have : x < z := by omega
          simp [this]
    · by_cases hyx : y < x
      · simp [hxy, hyx] at h1
      · simp only [hxy, hyx, if_false] at h1
        have hxy' : x = y := by omega
        subst hxy'
        by_cases hxz : x < z
        · simp [hxz]
        · by_cases hzx : z < x
          · simp [hxz, hzx] at h2
          · simp only [hxz, hzx, if_false] at h2 ⊢
            exact QString.lt_trans xs ys zs h1 h2

instance QString.le_isTotal : IsTotal QString (fun a b => QString.lt b a = false) :=
  ⟨fun a b => by
    cases h : QString.lt b a with
    | false => exact Or.inl rfl
    | true => exact Or.inr (QString.lt_asymm b a h)⟩

instance QString.le_isTrans : IsTrans QString (fun a b => QString.lt b a = false) :=
  ⟨fun a b c hab hbc => by
    show QString.lt c a = false
    cases h : QString.lt c a with
    | false => rfl
    | true =>
      rcases QString.lt_trichotomy a b with h1 | h1 | h1
      · have := QString.lt_trans c a b h h1
        rw [this] at hbc; exact absurd hbc (by simp)
      · subst h1; rw [h] at hbc; exact absurd hbc (by simp)
      · rw [h1] at hab; exact absurd hab (by simp)⟩

instance QString.le_isAntisymm : IsAntisymm QString (fun a b => QString.lt b a = false) :=
  ⟨fun a b hab hba => by
    rcases QString.lt_trichotomy a b with h | h | h
    · rw [h] at hba; exact absurd hba (by simp)
    · exact h
    · rw [h] at hab; exact absurd hab (by simp)⟩

theorem QStringList.sort_perm (l : List QString) : (QStringList.sort l).Perm l :=
  List.perm_insertionSort _ l

theorem QStringList.sort_sorted (l : List QString) :
    (QStringList.sort l).Sorted (fun a b => QString.lt b a = false) :=
  List.sorted_insertionSort _ l

theorem QStringList.sort_eq_of_perm {l l' : List QString} (h : l.Perm l') :
    QStringList.sort l = QStringList.sort l' :=
  List.eq_of_perm_of_sorted
    (((QStringList.sort_perm l).trans h).trans (QStringList.sort_perm l').symm)
    (QStringList.sort_sorted l) (QStringList.sort_sorted l')

theorem QStringList.sort_strict (l : List QString) (h : l.Nodup) :
    List.Pairwise (fun a b => QString.lt a b = true) (QStringList.sort l) := by
  have hs := QStringList.sort_sorted l
  have hn : (QStringList.sort l).Nodup := (QStringList.sort_perm l).nodup_iff.2 h
  refine (List.Pairwise.and hs hn).imp ?_
  intro a b hab
  rcases QString.lt_trichotomy a b with h1 | h1 | h1
  · exact h1
  · exact absurd h1 hab.2
  · rw [h1] at hab; exact absurd hab.1 (by simp)

/-! ## What a traversal collects -/

theorem Node.found_append (kind : FileKind) (a b : List Node) :
    Node.found kind (a ++ b) = Node.found kind a ++ Node.found kind b := by
  simp [Node.found]

theorem Node.found_invisible (kind : FileKind) (nodes : List Node)
    (h : ∀ nd ∈ nodes, nd.enumerated = false) : Node.found kind nodes = [] := by
  unfold Node.found
  rw [List.map_eq_nil_iff, List.filter_eq_nil_iff]
  intro nd hnd
  simp [h nd hnd]

theorem Node.found_dir_cons (kind : FileKind) (p n : QString) (ns : List QString) (e : Bool)
    (rest : List Node) :
    Node.found kind
      ({ path := p, names := ns, name := n, isDir := true, isFile := false, enumerated := e } ::
        rest) =
      Node.found kind rest := by
  simp [Node.found]

mutual
theorem ProjectItems.scanEntry_perm (path : QString) (rel : List QString) :
    ∀ (e : Entry) (st : ProjectItems),
      ((ProjectItems.scanEntry path e st).m_headerFiles.Perm
        (st.m_headerFiles ++ Node.found FileKind.Header (Entry.nodes path rel true e))) ∧
      ((ProjectItems.scanEntry path e st).m_sourceFiles.Perm
        (st.m_sourceFiles ++ Node.found FileKind.Source (Entry.nodes path rel true e)))
  | .file n h, st => by
    cases h with
    | true => simp [ProjectItems.scanEntry, Entry.nodes, Node.found]
    | false =>
      by_cases hh : n.indexOf headerExpression 0 true = 0
      · have h1 := (classify_header_iff n).2 hh
        simp [ProjectItems.scanEntry, Entry.nodes, Node.found, hh, h1]
      · by_cases hs : n.indexOf sourceExpression 0 true = 0
        · have h1 := (classify_source_iff n).2 hs
          simp [ProjectItems.scanEntry, Entry.nodes, Node.found, hh, hs, h1]
        · have h1 : ¬ ProjectItems.classify n = some FileKind.Header :=
            fun hc => hh ((classify_header_iff n).1 hc)
          have h2 : ¬ ProjectItems.classify n = some FileKind.Source :=
            fun hc => hs ((classify_source_iff n).1 hc)
          simp [ProjectItems.scanEntry, Entry.nodes, Node.found, hh, hs, h1, h2]
  | .special n h, st => by
    simp [ProjectItems.scanEntry, Entry.nodes, Node.found]
  | .dir n h r cs, st => by
    cases h with
    | true =>
      have hinv := Entry.nodesList_invisible (QDir.filePath path n) (rel ++ [n]) cs
      simp only [ProjectItems.scanEntry, Entry.nodes, if_true, Node.found_dir_cons,
        Bool.not_true, Bool.and_false, Bool.false_and]
      rw [Node.found_invisible _ _ hinv, Node.found_invisible _ _ hinv]
      simp
    | false =>
      cases r with
      | true =>
        have ih := ProjectItems.scanLoop_perm (QDir.filePath path n) (rel ++ [n]) cs st
        simp only [ProjectItems.scanEntry, Entry.nodes, if_true, Node.found_dir_cons,
          Bool.not_false, Bool.and_true, ProjectItems.sorted, Bool.false_eq_true, if_false]
        exact ⟨(QStringList.sort_perm _).trans ih.1, (QStringList.sort_perm _).trans ih.2⟩
      | false =>
        have hinv := Entry.nodesList_invisible (QDir.filePath path n) (rel ++ [n]) cs
        simp only [ProjectItems.scanEntry, Entry.nodes, Node.found_dir_cons,
          Bool.not_false, Bool.and_true, Bool.and_false, ProjectItems.sorted,
          Bool.false_eq_true, if_false]
        rw [Node.found_invisible _ _ hinv, Node.found_invisible _ _ hinv]
        simp only [List.append_nil]
        exact ⟨QStringList.sort_perm _, QStringList.sort_perm _⟩
theorem ProjectItems.scanLoop_perm (path : QString) (rel : List QString) :
    ∀ (cs : List Entry) (st : ProjectItems),
      ((ProjectItems.scanLoop path cs st).m_headerFiles.Perm
        (st.m_headerFiles ++ Node.found FileKind.Header (Entry.nodesList path rel true cs))) ∧
      ((ProjectItems.scanLoop path cs st).m_sourceFiles.Perm
        (st.m_sourceFiles ++ Node.found FileKind.Source (Entry.nodesList path rel true cs)))
  | [], st => by simp [ProjectItems.scanLoop, Entry.nodesList, Node.found]
  | e :: rest, st => by
    have h1 := ProjectItems.scanEntry_perm path rel e st
    have h2 := ProjectItems.scanLoop_perm path rel rest (ProjectItems.scanEntry path e st)
    simp only [ProjectItems.scanLoop, Entry.nodesList, Node.found_append]
    constructor
    · refine h2.1.trans ?_
      rw [← List.append_assoc]
      exact List.Perm.append_right _ h1.1
    · refine h2.2.trans ?_
      rw [← List.append_assoc]
      exact List.Perm.append_right _ h1.2
end

/-- The result of a scan that clears first: the sorted paths of the enumerated files of
each kind. -/
theorem ProjectItems.scan_clear (self : ProjectItems) (path : QString) (readable : Bool)
    (children : List Entry) :
    (self.scan path readable children true).headerFiles =
        QStringList.sort (Node.found FileKind.Header (Entry.nodesList path [] readable children)) ∧
    (self.scan path readable children true).sourceFiles =
        QStringList.sort (Node.found FileKind.Source (Entry.nodesList path [] readable children)) := by
  cases readable with
  | true =>
    have h := ProjectItems.scanLoop_perm path [] children { m_headerFiles := [], m_sourceFiles := [] }
    simp only [List.nil_append] at h
    simp only [ProjectItems.scan, if_true, ProjectItems.sorted, ProjectItems.headerFiles,
      ProjectItems.sourceFiles]
    exact ⟨QStringList.sort_eq_of_perm h.1, QStringList.sort_eq_of_perm h.2⟩
  | false =>
    have hinv := Entry.nodesList_invisible path [] children
    rw [Node.found_invisible _ _ hinv, Node.found_invisible _ _ hinv]
    simp [ProjectItems.scan, ProjectItems.sorted, ProjectItems.headerFiles,
      ProjectItems.sourceFiles]

/-! ## Paths of the entries of a well-formed tree -/

theorem QDir.filePath_eq (dir name : QString) :
    QDir.filePath dir name = QDir.entryBase dir ++ name := by
  unfold QDir.filePath QDir.entryBase
  split <;> simp

theorem validName_iff (n : QString) :
    validName n = true ↔ n ≠ [] ∧ 47 ∉ n ∧ n ≠ [46] ∧ n ≠ [46, 46] := by
  cases n with
  | nil => simp [validName]
  | cons a as => simp [validName, and_assoc]

theorem QDir.filePath_getLast (dir name : QString) (h : validName name = true) :
    (QDir.filePath dir name).getLast? ≠ some 47 := by
  rw [validName_iff] at h
  obtain ⟨hne, h47, _⟩ := h
  rw [QDir.filePath_eq, List.getLast?_append_of_ne_nil _ hne]
  intro hc
  exact h47 (by simpa [hc] using List.mem_of_mem_getLast? hc)

theorem QDir.filePath_of_valid (dir name child : QString) (h : validName name = true) :
    QDir.filePath (QDir.filePath dir name) child = QDir.filePath dir name ++ 47 :: child := by
  have := QDir.filePath_getLast dir name h
  conv_lhs => rw [QDir.filePath]
  simp [this]

theorem name_separator_inj :
    ∀ (n1 n2 r1 r2 : QString), 47 ∉ n1 → 47 ∉ n2 →
      (r1 = [] ∨ r1.head? = some 47) → (r2 = [] ∨ r2.head? = some 47) →
      n1 ++ r1 = n2 ++ r2 → n1 = n2
  | [], [], _, _, _, _, _, _, _ => rfl
  | [], b :: n2, r1, r2, _, h2, hr1, _, h => by
    simp only [List.nil_append, List.cons_append] at h
    subst h
    simp at hr1
    subst hr1
    simp at h2
  | a :: n1, [], r1, r2, h1, _, _, hr2, h => by
    simp only [List.nil_append, List.cons_append] at h
    subst h
    simp at hr2
    subst hr2
    simp at h1
  | a :: n1, b :: n2, r1, r2, h1, h2, hr1, hr2, h => by
    simp only [List.cons_append, List.cons.injEq] at h
    obtain ⟨rfl, h⟩ := h
    have := name_separator_inj n1 n2 r1 r2 (fun hc => h1 (List.mem_cons_of_mem _ hc))
      (fun hc => h2 (List.mem_cons_of_mem _ hc)) hr1 hr2 h
    rw [this]

theorem Entry.nodes_name_valid (e : Entry) (h : e.wellFormed = true) :
    validName e.name = true := by
  cases e with
  | file n hd => simpa [Entry.wellFormed, Entry.name] using h
  | special n hd => simpa [Entry.wellFormed, Entry.name] using h
  | dir n hd r cs =>
    simp only [Entry.wellFormed, Bool.and_eq_true] at h
    exact h.1.1

theorem Entry.wellFormedList_iff (cs : List Entry) :
    Entry.wellFormedList cs = true ↔ ∀ e ∈ cs, e.wellFormed = true := by
  induction cs with
  | nil => simp [Entry.wellFormedList]
  | cons e rest ih => simp [Entry.wellFormedList, ih]

theorem Entry.mem_nodesList (path : QString) (rel : List QString) (visible : Bool) (nd : Node) (cs : List Entry) :
    nd ∈ Entry.nodesList path rel visible cs ↔ ∃ e ∈ cs, nd ∈ Entry.nodes path rel visible e := by
  induction cs with
  | nil => simp [Entry.nodesList]
  | cons e rest ih => simp [Entry.nodesList, ih]

mutual
theorem Entry.nodes_shape (path : QString) (rel : List QString) (visible : Bool) (nd : Node) :
    ∀ (e : Entry), e.wellFormed = true → nd ∈ Entry.nodes path rel visible e →
      ∃ rest, nd.path = QDir.filePath path e.name ++ rest ∧ (rest = [] ∨ rest.head? = some 47)
  | .file n h, _, hnd => by
    simp only [Entry.nodes, List.mem_singleton] at hnd
    subst hnd
    exact ⟨[], by simp [Entry.name], Or.inl rfl⟩
  | .special n h, _, hnd => by
    simp only [Entry.nodes, List.mem_singleton] at hnd
    subst hnd
    exact ⟨[], by simp [Entry.name], Or.inl rfl⟩
  | .dir n h r cs, hwf, hnd => by
    simp only [Entry.nodes, List.mem_cons] at hnd
    rcases hnd with rfl | hnd
    · exact ⟨[], by simp [Entry.name], Or.inl rfl⟩
    · have hv := Entry.nodes_name_valid _ hwf
      simp only [Entry.wellFormed, Bool.and_eq_true] at hwf
      obtain ⟨e, _, rest, hp, _⟩ :=
        Entry.nodesList_shape (QDir.filePath path n) (rel ++ [n]) (visible && !h && r) nd cs hwf.1.2 hnd
      simp only [Entry.name] at hv
      rw [QDir.filePath_of_valid _ _ _ hv] at hp
      exact ⟨47 :: e.name ++ rest, by simp [Entry.name, hp], Or.inr rfl⟩
theorem Entry.nodesList_shape (path : QString) (rel : List QString) (visible : Bool) (nd : Node) :
    ∀ (cs : List Entry), Entry.wellFormedList cs = true → nd ∈ Entry.nodesList path rel visible cs →
      ∃ e ∈ cs, ∃ rest,
        nd.path = QDir.filePath path e.name ++ rest ∧ (rest = [] ∨ rest.head? = some 47)
  | [], _, hnd => by simp [Entry.nodesList] at hnd
  | e :: rest, hwf, hnd => by
    simp only [Entry.wellFormedList, Bool.and_eq_true] at hwf
    simp only [Entry.nodesList, List.mem_append] at hnd
    rcases hnd with hnd | hnd
    · obtain ⟨r, hr⟩ := Entry.nodes_shape path rel visible nd e hwf.1 hnd
      exact ⟨e, List.mem_cons_self _ _, r, hr⟩
    · obtain ⟨e2, he2, r, hr⟩ := Entry.nodesList_shape path rel visible nd rest hwf.2 hnd
      exact ⟨e2, List.mem_cons_of_mem _ he2, r, hr⟩
end

mutual
theorem Entry.nodes_nodup (path : QString) (rel : List QString) (visible : Bool) :
    ∀ (e : Entry), e.wellFormed = true →
      ((Entry.nodes path rel visible e).map (fun nd => nd.path)).Nodup
  | .file n h, _ => by simp [Entry.nodes]
  | .special n h, _ => by simp [Entry.nodes]
  | .dir n h r cs, hwf => by
    have hv := Entry.nodes_name_valid _ hwf
    simp only [Entry.name] at hv
    simp only [Entry.wellFormed, Bool.and_eq_true, decide_eq_true_eq] at hwf
    simp only [Entry.nodes, List.map_cons, List.nodup_cons]
    refine ⟨?_, Entry.nodesList_nodup (QDir.filePath path n) (rel ++ [n]) (visible && !h && r) cs hwf.1.2 hwf.2⟩
    intro hmem
    rw [List.mem_map] at hmem
    obtain ⟨nd, hnd, hp⟩ := hmem
    obtain ⟨e, _, rest, hp2, _⟩ := Entry.nodesList_shape _ _ _ nd cs hwf.1.2 hnd
    rw [QDir.filePath_of_valid _ _ _ hv] at hp2
    rw [hp2] at hp
    have := congrArg List.length hp
    simp at this
theorem Entry.nodesList_nodup (path : QString) (rel : List QString) (visible : Bool) :
    ∀ (cs : List Entry), Entry.wellFormedList cs = true → (cs.map Entry.name).Nodup →
      ((Entry.nodesList path rel visible cs).map (fun nd => nd.path)).Nodup
  | [], _, _ => by simp [Entry.nodesList]
  | e :: rest, hwf, hnd => by
    simp only [Entry.wellFormedList, Bool.and_eq_true] at hwf
    simp only [List.map_cons, List.nodup_cons] at hnd
    simp only [Entry.nodesList, List.map_append]
    rw [List.nodup_append]
    refine ⟨Entry.nodes_nodup path rel visible e hwf.1,
      Entry.nodesList_nodup path rel visible rest hwf.2 hnd.2, ?_⟩
    intro p hp1 hp2
    rw [List.mem_map] at hp1 hp2
    obtain ⟨nd1, hnd1, rfl⟩ := hp1
    obtain ⟨nd2, hnd2, heq⟩ := hp2
    obtain ⟨r1, hr1, hs1⟩ := Entry.nodes_shape path rel visible nd1 e hwf.1 hnd1
    obtain ⟨e2, he2, r2, hr2, hs2⟩ := Entry.nodesList_shape path rel visible nd2 rest hwf.2 hnd2
    rw [hr1, hr2, QDir.filePath_eq, QDir.filePath_eq, List.append_assoc, List.append_assoc] at heq
    have heq2 := List.append_cancel_left heq
    have hv1 := (validName_iff _).1 (Entry.nodes_name_valid e hwf.1)
    have hv2 := (validName_iff _).1
      (Entry.nodes_name_valid e2 ((Entry.wellFormedList_iff rest).1 hwf.2 e2 he2))
    have hname := name_separator_inj _ _ _ _ hv2.2.1 hv1.2.1 hs2 hs1 heq2
    exact hnd.1 (by rw [← hname]; exact List.mem_map_of_mem _ he2)
end

/-- In a directory tree no two entries have the same absolute path. -/
theorem Entry.tree_paths_nodup (path : QString) (rel : List QString) (visible : Bool) (children : List Entry)
    (h : Entry.tree children = true) :
    ((Entry.nodesList path rel visible children).map (fun nd => nd.path)).Nodup := by
  simp only [Entry.tree, Bool.and_eq_true, decide_eq_true_eq] at h
  exact Entry.nodesList_nodup path rel visible children h.1 h.2

mutual
theorem Entry.nodes_kind (path : QString) (rel : List QString) (visible : Bool) :
    ∀ (e : Entry) (nd : Node), nd ∈ Entry.nodes path rel visible e → nd.isFile = true →
      nd.isDir = false
  | .file n h, nd, hnd, _ => by
    simp only [Entry.nodes, List.mem_singleton] at hnd
    subst hnd; rfl
  | .special n h, nd, hnd, _ => by
    simp only [Entry.nodes, List.mem_singleton] at hnd
    subst hnd; rfl
  | .dir n h r cs, nd, hnd, hf => by
    simp only [Entry.nodes, List.mem_cons] at hnd
    rcases hnd with rfl | hnd
    · simp at hf
    · exact Entry.nodesList_kind (QDir.filePath path n) (rel ++ [n]) (visible && !h && r) cs nd hnd hf
theorem Entry.nodesList_kind (path : QString) (rel : List QString) (visible : Bool) :
    ∀ (cs : List Entry) (nd : Node), nd ∈ Entry.nodesList path rel visible cs → nd.isFile = true →
      nd.isDir = false
  | [], nd, hnd, _ => by simp [Entry.nodesList] at hnd
  | e :: rest, nd, hnd, hf => by
    simp only [Entry.nodesList, List.mem_append] at hnd
    rcases hnd with hnd | hnd
    · exact Entry.nodes_kind path rel visible e nd hnd hf
    · exact Entry.nodesList_kind path rel visible rest nd hnd hf
end

/-! ## Claims about the scan -/

theorem Node.mem_found (kind : FileKind) (nodes : List Node) (p : QString) :
    p ∈ Node.found kind nodes ↔
      ∃ nd ∈ nodes, nd.isFile = true ∧ nd.enumerated = true ∧
        ProjectItems.classify nd.name = some kind ∧ nd.path = p := by
  simp [Node.found, and_assoc]

theorem Node.found_nodup (kind : FileKind) (nodes : List Node)
    (h : (nodes.map (fun nd => nd.path)).Nodup) : (Node.found kind nodes).Nodup :=
  List.Nodup.sublist ((List.filter_sublist _).map _) h

theorem QStringList.mem_sort (l : List QString) (p : QString) :
    p ∈ QStringList.sort l ↔ p ∈ l :=
  (QStringList.sort_perm l).mem_iff

theorem QStringList.count_eq_one (l : List QString) (p : QString) (hn : l.Nodup)
    (hm : p ∈ l) : l.count p = 1 := by
  induction l with
  | nil => simp at hm
  | cons x xs ih =>
    rw [List.nodup_cons] at hn
    by_cases hpx : p = x
    · subst hpx
      rw [List.count_cons_self, List.count_eq_zero_of_not_mem hn.1]
    · rw [List.count_cons_of_ne hpx]
      exact ih hn.2 (by simpa [hpx] using hm)

theorem QStringList.count_sort_eq_one (l : List QString) (p : QString) (hn : l.Nodup)
    (hm : p ∈ l) : (QStringList.sort l).count p = 1 :=
  QStringList.count_eq_one _ p ((QStringList.sort_perm l).nodup_iff.2 hn)
    ((QStringList.mem_sort l p).2 hm)

/-- C2, as amended: in a directory tree, every regular file that the traversal enumerates
(it is not hidden, and the root and every directory between the root and the file can be
read and, below the root, is not hidden) and whose name matches the header pattern has its
absolute path exactly once in `headerFiles()` and not in `sourceFiles()` after a clearing
scan, and symmetrically for the source pattern; no path is in both lists. -/
theorem C2_enumerated_file_listed_once (self : ProjectItems) (path : QString)
    (readable : Bool) (children : List Entry) (h : Entry.tree children = true) :
    (∀ nd ∈ Entry.nodesList path [] readable children,
      nd.isFile = true → nd.enumerated = true →
      (nd.name.indexOf headerExpression 0 true = 0 →
        (self.scan path readable children true).headerFiles.count nd.path = 1 ∧
        nd.path ∉ (self.scan path readable children true).sourceFiles) ∧
      (nd.name.indexOf sourceExpression 0 true = 0 →
        (self.scan path readable children true).sourceFiles.count nd.path = 1 ∧
        nd.path ∉ (self.scan path readable children true).headerFiles)) ∧
    (∀ p, p ∈ (self.scan path readable children true).headerFiles →
      p ∉ (self.scan path readable children true).sourceFiles) := by
  obtain ⟨hH, hS⟩ := ProjectItems.scan_clear self path readable children
  have hnd := Entry.tree_paths_nodup path [] readable children h
  have hinj : ∀ a ∈ Entry.nodesList path [] readable children,
      ∀ b ∈ Entry.nodesList path [] readable children, a.path = b.path → a = b :=
    fun a ha b hb hab => List.inj_on_of_nodup_map hnd ha hb hab
  have hdisj : ∀ p, p ∈ Node.found FileKind.Header (Entry.nodesList path [] readable children) →
      p ∉ Node.found FileKind.Source (Entry.nodesList path [] readable children) := by
    intro p h1 h2
    rw [Node.mem_found] at h1 h2
    obtain ⟨a, ha, _, _, hca, hpa⟩ := h1
    obtain ⟨b, hb, _, _, hcb, hpb⟩ := h2
    have := hinj a ha b hb (hpa.trans hpb.symm)
    subst this
    rw [hca] at hcb
    exact absurd hcb (by decide)
  rw [hH, hS]
  refine ⟨fun nd hmem hfile henum => ⟨fun hm => ?_, fun hm => ?_⟩, fun p hp hp2 => ?_⟩
  · have hin : nd.path ∈ Node.found FileKind.Header (Entry.nodesList path [] readable children) :=
      (Node.mem_found _ _ _).2 ⟨nd, hmem, hfile, henum, (classify_header_iff _).2 hm, rfl⟩
    refine ⟨?_, fun hc => hdisj _ hin ((QStringList.mem_sort _ _).1 hc)⟩
    exact QStringList.count_sort_eq_one _ _ (Node.found_nodup _ _ hnd) hin
  · have hin : nd.path ∈ Node.found FileKind.Source (Entry.nodesList path [] readable children) :=
      (Node.mem_found _ _ _).2 ⟨nd, hmem, hfile, henum, (classify_source_iff _).2 hm, rfl⟩
    refine ⟨?_, fun hc => hdisj _ ((QStringList.mem_sort _ _).1 hc) hin⟩
    exact QStringList.count_sort_eq_one _ _ (Node.found_nodup _ _ hnd) hin
  · exact hdisj p ((QStringList.mem_sort _ _).1 hp) ((QStringList.mem_sort _ _).1 hp2)

set_option maxRecDepth 100000 in
/-- C2, counterexample: a hidden file `.a.h`, a special file `fifo.h`, a file `b.h` in a
directory that cannot be read and a file `c.cpp` in a hidden directory are non-directory
entries of a directory tree with matching names, yet a clearing scan lists none of them. -/
theorem C2_counterexample_not_enumerated :
    Entry.tree sampleFiltered = true ∧
    (∀ p ∈ [qstr "/r/.a.h", qstr "/r/fifo.h", qstr "/r/locked/b.h", qstr "/r/.git/c.cpp"],
      ∃ nd ∈ Entry.nodesList (qstr "/r") [] true sampleFiltered,
        nd.path = p ∧ nd.isDir = false ∧
        (nd.name.indexOf headerExpression 0 true = 0 ∨
          nd.name.indexOf sourceExpression 0 true = 0)) ∧
    (ProjectItems.scan ⟨[], []⟩ (qstr "/r") true sampleFiltered true).headerFiles =
      [qstr "/r/ok.h"] ∧
    (ProjectItems.scan ⟨[], []⟩ (qstr "/r") true sampleFiltered true).sourceFiles = [] ∧
    (ProjectItems.scan ⟨[], []⟩ (qstr "/r") true sampleFiltered true).headerFiles.count
      (qstr "/r/.a.h") = 0 := by
  decide

set_option maxRecDepth 100000 in
theorem C2_enumerated_file_listed_once_witness :
    Entry.tree sampleFiltered = true ∧
    (ProjectItems.scan ⟨[], []⟩ (qstr "/r") true sampleFiltered true).headerFiles.count
      (qstr "/r/ok.h") = 1 ∧
    qstr "/r/ok.h" ∉
      (ProjectItems.scan ⟨[], []⟩ (qstr "/r") true sampleFiltered true).sourceFiles :=
  ⟨by decide,
   ((C2_enumerated_file_listed_once ⟨[], []⟩ (qstr "/r") true sampleFiltered (by decide)).1
      { path := qstr "/r/ok.h", names := [qstr "ok.h"], name := qstr "ok.h", isDir := false, isFile := true,
        enumerated := true } (by decide) rfl rfl).1 (by decide)⟩

/-- C3: after a scan of a directory tree every string in `headerFiles()` is the absolute
path of a non-directory entry whose name matches the header pattern, and every string in
`sourceFiles()` that of a non-directory entry whose name matches the source pattern; the
path of an entry whose name matches neither pattern is in neither list, and neither is
the path of a directory, whatever its name. -/
theorem C3_listed_paths_are_matching_files (self : ProjectItems) (path : QString)
    (readable : Bool) (children : List Entry) (h : Entry.tree children = true) :
    (∀ p ∈ (self.scan path readable children true).headerFiles,
      ∃ nd ∈ Entry.nodesList path [] readable children,
        nd.path = p ∧ nd.isDir = false ∧ nd.name.indexOf headerExpression 0 true = 0) ∧
    (∀ p ∈ (self.scan path readable children true).sourceFiles,
      ∃ nd ∈ Entry.nodesList path [] readable children,
        nd.path = p ∧ nd.isDir = false ∧ nd.name.indexOf sourceExpression 0 true = 0) ∧
    (∀ nd ∈ Entry.nodesList path [] readable children,
      (nd.isDir = true ∨ (nd.name.indexOf headerExpression 0 true ≠ 0 ∧
        nd.name.indexOf sourceExpression 0 true ≠ 0)) →
      nd.path ∉ (self.scan path readable children true).headerFiles ∧
      nd.path ∉ (self.scan path readable children true).sourceFiles) := by
  obtain ⟨hH, hS⟩ := ProjectItems.scan_clear self path readable children
  have hnd := Entry.tree_paths_nodup path [] readable children h
  have hinj : ∀ a ∈ Entry.nodesList path [] readable children,
      ∀ b ∈ Entry.nodesList path [] readable children, a.path = b.path → a = b :=
    fun a ha b hb hab => List.inj_on_of_nodup_map hnd ha hb hab
  have hfd := Entry.nodesList_kind path [] readable children
  rw [hH, hS]
  refine ⟨fun p hp => ?_, fun p hp => ?_, fun nd hmem hcase => ⟨fun hc => ?_, fun hc => ?_⟩⟩
  · obtain ⟨nd, hmem, hf, _, hc, hpath⟩ := (Node.mem_found _ _ _).1 ((QStringList.mem_sort _ _).1 hp)
    exact ⟨nd, hmem, hpath, hfd nd hmem hf, (classify_header_iff _).1 hc⟩
  · obtain ⟨nd, hmem, hf, _, hc, hpath⟩ := (Node.mem_found _ _ _).1 ((QStringList.mem_sort _ _).1 hp)
    exact ⟨nd, hmem, hpath, hfd nd hmem hf, (classify_source_iff _).1 hc⟩
  · obtain ⟨nd2, hmem2, hf, _, hcl, hpath⟩ :=
      (Node.mem_found _ _ _).1 ((QStringList.mem_sort _ _).1 hc)
    have := hinj nd2 hmem2 nd hmem hpath
    subst this
    rcases hcase with hd | hn
    · rw [hfd nd2 hmem2 hf] at hd
      exact absurd hd (by simp)
    · exact hn.1 ((classify_header_iff _).1 hcl)
  · obtain ⟨nd2, hmem2, hf, _, hcl, hpath⟩ :=
      (Node.mem_found _ _ _).1 ((QStringList.mem_sort _ _).1 hc)
    have := hinj nd2 hmem2 nd hmem hpath
    subst this
    rcases hcase with hd | hn
    · rw [hfd nd2 hmem2 hf] at hd
      exact absurd hd (by simp)
    · exact hn.2 ((classify_source_iff _).1 hcl)

set_option maxRecDepth 100000 in
theorem C3_listed_paths_are_matching_files_witness :
    Entry.tree sampleScenario = true ∧
    (ProjectItems.scan ⟨[], []⟩ (qstr "/root") true sampleScenario true).headerFiles =
      [qstr "/root/a.h"] ∧
    (ProjectItems.scan ⟨[], []⟩ (qstr "/root") true sampleScenario true).sourceFiles =
      [qstr "/root/sub/b.cpp"] ∧
    (qstr "/root/sub/unrelated.txt" ∉
        (ProjectItems.scan ⟨[], []⟩ (qstr "/root") true sampleScenario true).headerFiles ∧
      qstr "/root/sub/unrelated.txt" ∉
        (ProjectItems.scan ⟨[], []⟩ (qstr "/root") true sampleScenario true).sourceFiles) ∧
    (qstr "/root/inc.h" ∉
        (ProjectItems.scan ⟨[], []⟩ (qstr "/root") true sampleScenario true).headerFiles ∧
      qstr "/root/inc.h" ∉
        (ProjectItems.scan ⟨[], []⟩ (qstr "/root") true sampleScenario true).sourceFiles) :=
  ⟨by decide, by decide, by decide,
   (C3_listed_paths_are_matching_files ⟨[], []⟩ (qstr "/root") true sampleScenario
      (by decide)).2.2
      { path := qstr "/root/sub/unrelated.txt", names := [qstr "sub", qstr "unrelated.txt"],
        name := qstr "unrelated.txt", isDir := false,
        isFile := true, enumerated := true } (by decide) (Or.inr (by decide)),
   (C3_listed_paths_are_matching_files ⟨[], []⟩ (qstr "/root") true sampleScenario
      (by decide)).2.2
      { path := qstr "/root/inc.h", names := [qstr "inc.h"], name := qstr "inc.h", isDir := true,
        isFile := false, enumerated := true } (by decide) (Or.inl rfl)⟩

/-- C4: after a scan of a directory tree with unique sibling names both `headerFiles()`
and `sourceFiles()` are strictly ascending under the comparison of `QString`: sorted and
free of duplicates. -/
theorem C4_lists_strictly_ascending (self : ProjectItems) (path : QString)
    (readable : Bool) (children : List Entry) (h : Entry.tree children = true) :
    List.Pairwise (fun a b => QString.lt a b = true)
      (self.scan path readable children true).headerFiles ∧
    List.Pairwise (fun a b => QString.lt a b = true)
      (self.scan path readable children true).sourceFiles := by
  obtain ⟨hH, hS⟩ := ProjectItems.scan_clear self path readable children
  have hnd := Entry.tree_paths_nodup path [] readable children h
  rw [hH, hS]
  exact ⟨QStringList.sort_strict _ (Node.found_nodup _ _ hnd),
    QStringList.sort_strict _ (Node.found_nodup _ _ hnd)⟩

set_option maxRecDepth 100000 in
theorem C4_lists_strictly_ascending_witness :
    Entry.tree sampleUnsorted = true ∧
    (ProjectItems.scan ⟨[], []⟩ (qstr "/r") true sampleUnsorted true).headerFiles =
      [qstr "/r/a.h", qstr "/r/m/b.h", qstr "/r/m/y.h", qstr "/r/z.h"] ∧
    List.Pairwise (fun a b => QString.lt a b = true)
      (ProjectItems.scan ⟨[], []⟩ (qstr "/r") true sampleUnsorted true).headerFiles ∧
    List.Pairwise (fun a b => QString.lt a b = true)
      (ProjectItems.scan ⟨[], []⟩ (qstr "/r") true sampleUnsorted true).sourceFiles :=
  ⟨by decide, by decide,
   C4_lists_strictly_ascending ⟨[], []⟩ (qstr "/r") true sampleUnsorted (by decide)⟩

/-! ## Claims about the generated text -/

theorem Project.foldl_stream (g : QString → QString) (l : List QString) :
    ∀ out : QString,
      l.foldl (fun out file => out ++ qstr " \\" ++ endl ++ qstr "  " ++ g file) out =
        out ++ l.flatMap (fun file => qstr " \\" ++ [10] ++ qstr "  " ++ g file) := by
  induction l with
  | nil => intro out; simp
  | cons x xs ih =>
    intro out
    rw [List.foldl_cons, ih]
    simp [endl, List.append_assoc]

theorem Project.streamText_eq (self : Project) :
    self.streamText =
      Spec.projectText self.m_projectRoot self.m_project.headerFiles
        self.m_project.sourceFiles := by
  unfold Project.streamText Spec.projectText Spec.block
  simp only []
  rw [Project.foldl_stream (QDir.relativeFilePath self.m_projectRoot),
    Project.foldl_stream (QDir.relativeFilePath self.m_projectRoot)]
  simp only [endl, List.nil_append, List.append_assoc]

/-- C5: when the output file can be opened, the text written by
`Project::generateProject` is exactly the line `TEMPLATE = app`, an empty line,
`HEADERS =` followed for each header in list order by a continuation marker, a newline,
two spaces and the root-relative path, then a newline, an empty line, `SOURCES =`
followed in the same way by the sources, and a final newline. -/
theorem C5_generated_text (self : Project) (fs : FileSystem)
    (hopen : fs.canOpen self.m_outputFileName = true) :
    self.generateProject fs =
      (true, [Effect.opened self.m_outputFileName true,
        Effect.written self.m_outputFileName
          (Spec.projectText self.m_projectRoot self.m_project.headerFiles
            self.m_project.sourceFiles)]) := by
  simp [Project.generateProject, hopen, Project.streamText_eq]

set_option maxRecDepth 100000 in
theorem C5_generated_text_witness :
    sampleFileSystem.canOpen sampleProject.m_outputFileName = true ∧
    sampleProject.generateProject sampleFileSystem =
      (true, [Effect.opened (qstr "/r/out.pro") true,
        Effect.written (qstr "/r/out.pro")
          (qstr "TEMPLATE = app\n\nHEADERS = \\\n  a.h \\\n  sub/b.h\n\nSOURCES = \\\n  m.cpp\n")]) :=
  ⟨rfl, (C5_generated_text sampleProject sampleFileSystem rfl).trans (by decide)⟩

/-! ## Root-relative paths -/

theorem intercalate_cons_cons (a b : QString) (l : List QString) :
    [47].intercalate (a :: b :: l) = a ++ 47 :: [47].intercalate (b :: l) := by
  simp [List.intercalate, List.intersperse]

theorem intercalate_append_singleton :
    ∀ (l : List QString) (n : QString), l ≠ [] →
      [47].intercalate (l ++ [n]) = [47].intercalate l ++ 47 :: n
  | [], _, h => absurd rfl h
  | [a], n, _ => by simp [List.intercalate, List.intersperse]
  | a :: b :: l, n, _ => by
    rw [List.cons_append, List.cons_append, intercalate_cons_cons,
      ← List.cons_append, intercalate_append_singleton (b :: l) n (by simp),
      intercalate_cons_cons]
    simp

theorem validName_ne_nil {n : QString} (h : validName n = true) : n ≠ [] :=
  ((validName_iff n).1 h).1

theorem validName_no_separator {n : QString} (h : validName n = true) : 47 ∉ n :=
  ((validName_iff n).1 h).2.1

theorem valid_getLast {n : QString} (h : validName n = true) (pre : QString) :
    (pre ++ n).getLast? ≠ some 47 := by
  rw [List.getLast?_append_of_ne_nil _ (validName_ne_nil h)]
  intro hc
  exact validName_no_separator h (List.mem_of_mem_getLast? hc)

theorem QDir.absolutePath_getLast (l : List QString) (hl : ∀ n ∈ l, validName n = true)
    (hne : l ≠ []) : (QDir.absolutePath l).getLast? ≠ some 47 := by
  rcases List.eq_nil_or_concat l with h | ⟨l', n, h⟩
  · exact absurd h hne
  · subst h
    rw [List.concat_eq_append] at hl ⊢
    have hn : validName n = true := hl n (by simp)
    unfold QDir.absolutePath
    by_cases hl' : l' = []
    · subst hl'
      have : [47].intercalate ([] ++ [n]) = n := by simp [List.intercalate, List.intersperse]
      rw [this]
      exact valid_getLast hn [47]
    · rw [intercalate_append_singleton l' n hl']
      have : 47 :: ([47].intercalate l' ++ 47 :: n) = (47 :: ([47].intercalate l' ++ [47])) ++ n := by
        simp
      rw [this]
      exact valid_getLast hn _

theorem QDir.filePath_absolutePath (l : List QString) (n : QString)
    (hl : ∀ m ∈ l, validName m = true) :
    QDir.filePath (QDir.absolutePath l) n = QDir.absolutePath (l ++ [n]) := by
  by_cases hne : l = []
  · subst hne
    simp [QDir.filePath, QDir.absolutePath, List.intercalate, List.intersperse]
  · have := QDir.absolutePath_getLast l hl hne
    unfold QDir.filePath
    rw [if_neg this]
    unfold QDir.absolutePath
    rw [intercalate_append_singleton l n hne]
    simp

theorem QString.splitSkipEmpty_absolutePath (l : List QString)
    (hl : ∀ n ∈ l, validName n = true) : (QDir.absolutePath l).splitSkipEmpty = l := by
  unfold QString.splitSkipEmpty QDir.absolutePath
  have hcons : ∀ xs : QString, (47 :: xs).splitOn 47 = [] :: xs.splitOn 47 := by
    intro xs
    simp [List.splitOn, List.splitOnP_cons]
  rw [hcons]
  by_cases hne : l = []
  · subst hne
    simp [List.intercalate, List.intersperse]
  · rw [List.splitOn_intercalate l 47 (fun n hn => validName_no_separator (hl n hn)) hne]
    rw [List.filter_cons_of_neg (by simp), List.filter_eq_self]
    intro n hn
    have := validName_ne_nil (hl n hn)
    cases n with
    | nil => exact absurd rfl this
    | cons _ _ => rfl

theorem zip_self_takeWhile (e rest : List QString) :
    ((e.zip (e ++ rest)).takeWhile (fun de => de.1 == de.2)).length = e.length := by
  induction e with
  | nil => simp
  | cons a e ih => simp [List.takeWhile_cons, ih]

theorem QDir.relativeFilePath_absolutePath (e names : List QString)
    (he : ∀ n ∈ e, validName n = true) (hn : ∀ n ∈ names, validName n = true) :
    QDir.relativeFilePath (QDir.absolutePath e) (QDir.absolutePath (e ++ names)) =
      [47].intercalate names := by
  have hall : ∀ n ∈ e ++ names, validName n = true := by
    intro n hmem
    rcases List.mem_append.1 hmem with h | h
    · exact he n h
    · exact hn n h
  unfold QDir.relativeFilePath
  rw [QString.splitSkipEmpty_absolutePath e he, QString.splitSkipEmpty_absolutePath _ hall]
  simp only [zip_self_takeWhile]
  simp [QDir.absolutePath]

mutual
theorem Entry.nodes_names (root : List QString) (hroot : ∀ n ∈ root, validName n = true)
    (nd : Node) :
    ∀ (e : Entry) (rel : List QString) (visible : Bool),
      (∀ n ∈ rel, validName n = true) → e.wellFormed = true →
      nd ∈ Entry.nodes (QDir.absolutePath (root ++ rel)) rel visible e →
      nd.path = QDir.absolutePath (root ++ nd.names) ∧
        (∀ n ∈ nd.names, validName n = true) ∧ nd.names ≠ []
  | .file n h, rel, visible, hrel, hwf, hnd => by
    have hv : validName n = true := by simpa [Entry.wellFormed] using hwf
    have hall : ∀ m ∈ root ++ rel, validName m = true := fun m hm =>
      (List.mem_append.1 hm).elim (hroot m) (hrel m)
    simp only [Entry.nodes, List.mem_singleton] at hnd
    subst hnd
    refine ⟨by simp [QDir.filePath_absolutePath _ _ hall], ?_, by simp⟩
    intro m hm
    rcases List.mem_append.1 hm with h1 | h1
    · exact hrel m h1
    · simp only [List.mem_singleton] at h1; subst h1; exact hv
  | .special n h, rel, visible, hrel, hwf, hnd => by
    have hv : validName n = true := by simpa [Entry.wellFormed] using hwf
    have hall : ∀ m ∈ root ++ rel, validName m = true := fun m hm =>
      (List.mem_append.1 hm).elim (hroot m) (hrel m)
    simp only [Entry.nodes, List.mem_singleton] at hnd
    subst hnd
    refine ⟨by simp [QDir.filePath_absolutePath _ _ hall], ?_, by simp⟩
    intro m hm
    rcases List.mem_append.1 hm with h1 | h1
    · exact hrel m h1
    · simp only [List.mem_singleton] at h1; subst h1; exact hv
  | .dir n h r cs, rel, visible, hrel, hwf, hnd => by
    have hv : validName n = true := Entry.nodes_name_valid _ hwf
    have hall : ∀ m ∈ root ++ rel, validName m = true := fun m hm =>
      (List.mem_append.1 hm).elim (hroot m) (hrel m)
    have hrel2 : ∀ m ∈ rel ++ [n], validName m = true := by
      intro m hm
      rcases List.mem_append.1 hm with h1 | h1
      · exact hrel m h1
      · simp only [List.mem_singleton] at h1; subst h1; exact hv
    simp only [Entry.wellFormed, Bool.and_eq_true] at hwf
    simp only [Entry.nodes, List.mem_cons] at hnd
    rcases hnd with rfl | hnd
    · exact ⟨by simp [QDir.filePath_absolutePath _ _ hall], hrel2, by simp⟩
    · rw [QDir.filePath_absolutePath _ _ hall, List.append_assoc] at hnd
      exact Entry.nodesList_names root hroot nd cs (rel ++ [n]) _ hrel2 hwf.1.2 hnd
theorem Entry.nodesList_names (root : List QString) (hroot : ∀ n ∈ root, validName n = true)
    (nd : Node) :
    ∀ (cs : List Entry) (rel : List QString) (visible : Bool),
      (∀ n ∈ rel, validName n = true) → Entry.wellFormedList cs = true →
      nd ∈ Entry.nodesList (QDir.absolutePath (root ++ rel)) rel visible cs →
      nd.path = QDir.absolutePath (root ++ nd.names) ∧
        (∀ n ∈ nd.names, validName n = true) ∧ nd.names ≠ []
  | [], _, _, _, _, hnd => by simp [Entry.nodesList] at hnd
  | e :: rest, rel, visible, hrel, hwf, hnd => by
    simp only [Entry.wellFormedList, Bool.and_eq_true] at hwf
    simp only [Entry.nodesList, List.mem_append] at hnd
    rcases hnd with hnd | hnd
    · exact Entry.nodes_names root hroot nd e rel visible hrel hwf.1 hnd
    · exact Entry.nodesList_names root hroot nd rest rel visible hrel hwf.2 hnd
end

theorem intercalate_head (names : List QString) (hn : ∀ n ∈ names, validName n = true)
    (hne : names ≠ []) : ([47].intercalate names).head? ≠ some 47 := by
  cases names with
  | nil => exact absurd rfl hne
  | cons a rest =>
    have ha := hn a (by simp)
    have h1 := validName_ne_nil ha
    have h2 := validName_no_separator ha
    cases a with
    | nil => exact absurd rfl h1
    | cons c cs =>
      have hc : c ≠ 47 := fun hc => h2 (by simp [hc])
      cases rest with
      | nil => simpa [List.intercalate, List.intersperse] using hc
      | cons b l =>
        rw [intercalate_cons_cons]
        simpa using hc

theorem intercalate_append :
    ∀ (l1 l2 : List QString), l1 ≠ [] → l2 ≠ [] →
      [47].intercalate (l1 ++ l2) = [47].intercalate l1 ++ 47 :: [47].intercalate l2
  | [], _, h, _ => absurd rfl h
  | [a], [], _, h => absurd rfl h
  | [a], b :: l, _, _ => by
    rw [List.singleton_append, intercalate_cons_cons]
    simp [List.intercalate, List.intersperse]
  | a :: b :: l1, l2, _, h2 => by
    rw [List.cons_append, List.cons_append, intercalate_cons_cons,
      ← List.cons_append, intercalate_append (b :: l1) l2 (by simp) h2, intercalate_cons_cons]
    simp

theorem QDir.absolutePath_append (e names : List QString) (he : e ≠ []) (hn : names ≠ []) :
    QDir.absolutePath e ++ 47 :: [47].intercalate names = QDir.absolutePath (e ++ names) := by
  unfold QDir.absolutePath
  rw [intercalate_append e names he hn]
  simp

theorem QDir.filePath_intercalate (e names : List QString)
    (he : ∀ n ∈ e, validName n = true) (hn : names ≠ []) :
    QDir.filePath (QDir.absolutePath e) ([47].intercalate names) =
      QDir.absolutePath (e ++ names) := by
  by_cases hne : e = []
  · subst hne
    simp [QDir.filePath, QDir.absolutePath, List.intercalate, List.intersperse]
  · have := QDir.absolutePath_getLast e he hne
    unfold QDir.filePath
    rw [if_neg this, ← QDir.absolutePath_append e names hne hn]
    simp

/-- C6, as amended: for a project root with the path elements `rootElements` and every
file found by the scan below it, the entry that `Project::generateProject` emits, the
path relative to `m_projectRoot`, is the sequence of names from the root down to the file
joined by `/`; it differs from the absolute path stored in the scan result; joining it to
the root path with a separator unless the root path ends with one gives back the
absolute path, and when the root is not the root directory `/` this is the root path,
`/` and the entry. -/
theorem C6_entries_are_root_relative (project : Project) (fs : FileSystem)
    (rootElements : List QString) (hroot : ∀ n ∈ rootElements, validName n = true)
    (htree : Entry.tree (fs.entries (QDir.absolutePath rootElements)) = true) :
    ∀ file,
      (file ∈ (project.enumerateItems fs (QDir.absolutePath rootElements)).2.m_project.headerFiles ∨
       file ∈ (project.enumerateItems fs (QDir.absolutePath rootElements)).2.m_project.sourceFiles) →
      ∃ nd ∈ Entry.nodesList (QDir.absolutePath rootElements) []
          (fs.readable (QDir.absolutePath rootElements))
          (fs.entries (QDir.absolutePath rootElements)),
        nd.path = file ∧ nd.isFile = true ∧
        QDir.relativeFilePath
          (project.enumerateItems fs (QDir.absolutePath rootElements)).2.m_projectRoot file =
            [47].intercalate nd.names ∧
        [47].intercalate nd.names ≠ file ∧
        QDir.filePath (QDir.absolutePath rootElements) ([47].intercalate nd.names) = file ∧
        (rootElements = [] ∨
          QDir.absolutePath rootElements ++ 47 :: [47].intercalate nd.names = file) := by
  intro file hfile
  obtain ⟨hH, hS⟩ := ProjectItems.scan_clear project.m_project (QDir.absolutePath rootElements)
    (fs.readable (QDir.absolutePath rootElements)) (fs.entries (QDir.absolutePath rootElements))
  simp only [Project.enumerateItems] at hfile ⊢
  rw [hH, hS, QStringList.mem_sort, QStringList.mem_sort, Node.mem_found, Node.mem_found] at hfile
  have hex : ∃ nd ∈ Entry.nodesList (QDir.absolutePath rootElements) []
      (fs.readable (QDir.absolutePath rootElements))
      (fs.entries (QDir.absolutePath rootElements)), nd.isFile = true ∧ nd.path = file := by
    rcases hfile with ⟨nd, h1, h2, _, _, h3⟩ | ⟨nd, h1, h2, _, _, h3⟩
    · exact ⟨nd, h1, h2, h3⟩
    · exact ⟨nd, h1, h2, h3⟩
  obtain ⟨nd, hmem, hisfile, hpath⟩ := hex
  simp only [Entry.tree, Bool.and_eq_true, decide_eq_true_eq] at htree
  have hmem2 : nd ∈ Entry.nodesList (QDir.absolutePath (rootElements ++ [])) []
      (fs.readable (QDir.absolutePath rootElements))
      (fs.entries (QDir.absolutePath rootElements)) := by simpa using hmem
  obtain ⟨hp, hvalid, hne⟩ := Entry.nodesList_names rootElements hroot nd _ [] _
    (by simp) htree.1 hmem2
  have hrel := QDir.relativeFilePath_absolutePath rootElements nd.names hroot hvalid
  have hhead := intercalate_head nd.names hvalid hne
  refine ⟨nd, hmem, hpath, hisfile, ?_, ?_, ?_, ?_⟩
  · rw [← hpath, hp]; exact hrel
  · rw [← hpath, hp]
    intro hc
    rw [hc] at hhead
    simp [QDir.absolutePath] at hhead
  · rw [← hpath, hp]
    exact QDir.filePath_intercalate rootElements nd.names hroot hne
  · by_cases hE : rootElements = []
    · exact Or.inl hE
    · right
      rw [← hpath, hp]
      exact QDir.absolutePath_append rootElements nd.names hE hne

set_option maxRecDepth 100000 in
/-- C6, counterexample: with the root directory `/` as project root, the file `/sub/a.h`
is rendered as `sub/a.h`, and prefixing this entry with the root path and `/` gives
`//sub/a.h`, not the absolute path stored in the scan result. -/
theorem C6_counterexample_root_directory :
    (Project.new.enumerateItems sampleRootFileSystem (qstr "/")).2.m_project.headerFiles =
      [qstr "/sub/a.h"] ∧
    QDir.relativeFilePath
      (Project.new.enumerateItems sampleRootFileSystem (qstr "/")).2.m_projectRoot
      (qstr "/sub/a.h") = qstr "sub/a.h" ∧
    (Project.new.enumerateItems sampleRootFileSystem (qstr "/")).2.m_projectRoot ++ qstr "/" ++
      qstr "sub/a.h" = qstr "//sub/a.h" ∧
    qstr "//sub/a.h" ≠ qstr "/sub/a.h" := by
  decide

set_option maxRecDepth 100000 in
theorem C6_entries_are_root_relative_witness :
    (∀ n ∈ [qstr "r"], validName n = true) ∧
    QDir.absolutePath [qstr "r"] = qstr "/r" ∧
    (∃ nd ∈ Entry.nodesList (QDir.absolutePath [qstr "r"]) []
          (sampleRootFileSystem.readable (QDir.absolutePath [qstr "r"]))
          (sampleRootFileSystem.entries (QDir.absolutePath [qstr "r"])),
        nd.path = qstr "/r/sub/a.h" ∧ nd.isFile = true ∧
        QDir.relativeFilePath
          (Project.new.enumerateItems sampleRootFileSystem
            (QDir.absolutePath [qstr "r"])).2.m_projectRoot (qstr "/r/sub/a.h") =
            [47].intercalate nd.names ∧
        [47].intercalate nd.names ≠ qstr "/r/sub/a.h" ∧
        QDir.filePath (QDir.absolutePath [qstr "r"]) ([47].intercalate nd.names) =
          qstr "/r/sub/a.h" ∧
        ([qstr "r"] = [] ∨
          QDir.absolutePath [qstr "r"] ++ 47 :: [47].intercalate nd.names =
            qstr "/r/sub/a.h")) ∧
    QDir.relativeFilePath (qstr "/r") (qstr "/r/sub/a.h") = qstr "sub/a.h" :=
  ⟨by decide, by decide,
   C6_entries_are_root_relative Project.new sampleRootFileSystem [qstr "r"] (by decide)
     (by decide) (qstr "/r/sub/a.h") (Or.inl (by decide)),
   by decide⟩

/-! ## Determinism -/

theorem Entry.ReorderedList.nodes_perm {cs cs2 : List Entry} (h : Entry.ReorderedList cs cs2) :
    ∀ (path : QString) (rel : List QString) (visible : Bool),
      (Entry.nodesList path rel visible cs).Perm (Entry.nodesList path rel visible cs2) := by
  refine Entry.ReorderedList.rec
    (motive_1 := fun e e2 _ => ∀ (path : QString) (rel : List QString) (visible : Bool),
      (Entry.nodes path rel visible e).Perm (Entry.nodes path rel visible e2))
    (motive_2 := fun l l2 _ => ∀ (path : QString) (rel : List QString) (visible : Bool),
      (Entry.nodesList path rel visible l).Perm (Entry.nodesList path rel visible l2))
    ?_ ?_ ?_ ?_ ?_ ?_ ?_ h
  · intro n hd path rel visible
    exact List.Perm.refl _
  · intro n hd path rel visible
    exact List.Perm.refl _
  · intro n hd r cs cs2 _ ih path rel visible
    simp only [Entry.nodes]
    exact List.Perm.cons _ (ih _ _ _)
  · intro path rel visible
    exact List.Perm.refl _
  · intro e e2 l l2 _ _ ih1 ih2 path rel visible
    simp only [Entry.nodesList]
    exact List.Perm.append (ih1 _ _ _) (ih2 _ _ _)
  · intro e1 e2 l path rel visible
    simp only [Entry.nodesList, ← List.append_assoc]
    exact List.Perm.append_right _ List.perm_append_comm
  · intro a b c _ _ ih1 ih2 path rel visible
    exact (ih1 _ _ _).trans (ih2 _ _ _)

theorem Node.found_perm (kind : FileKind) {a b : List Node} (h : a.Perm b) :
    (Node.found kind a).Perm (Node.found kind b) :=
  (h.filter _).map _

theorem ProjectItems.scan_reordered (self self2 : ProjectItems) (path : QString)
    (readable : Bool) {cs cs2 : List Entry} (h : Entry.ReorderedList cs cs2) :
    self.scan path readable cs true = self2.scan path readable cs2 true := by
  obtain ⟨h1, h2⟩ := ProjectItems.scan_clear self path readable cs
  obtain ⟨h3, h4⟩ := ProjectItems.scan_clear self2 path readable cs2
  have hp := h.nodes_perm path [] readable
  have e1 := QStringList.sort_eq_of_perm (Node.found_perm FileKind.Header hp)
  have e2 := QStringList.sort_eq_of_perm (Node.found_perm FileKind.Source hp)
  simp only [ProjectItems.headerFiles, ProjectItems.sourceFiles] at h1 h2 h3 h4
  cases hs : self.scan path readable cs true with
  | mk a b =>
    cases hs2 : self2.scan path readable cs2 true with
    | mk c d =>
      rw [hs] at h1 h2
      rw [hs2] at h3 h4
      simp only at h1 h2 h3 h4
      rw [h1, h2, h3, h4, e1, e2]

/-- C7: the scan result and the generated text do not depend on the order in which
directories enumerate their entries. For two file systems that differ only in that
order, a clearing scan of the same directory gives identical header lists and identical
source lists, `Project::generateProject` has the same result and writes the same text,
and so does a whole run of `main`. -/
theorem C7_enumeration_order_irrelevant (fs fs2 : FileSystem) (project : Project)
    (hname : fs.absoluteFilePath = fs2.absoluteFilePath) (hdir : fs.absoluteDir = fs2.absoluteDir)
    (hexists : fs.dirExists = fs2.dirExists) (hread : fs.readable = fs2.readable)
    (hopen : fs.canOpen = fs2.canOpen)
    (hentries : ∀ path, Entry.ReorderedList (fs.entries path) (fs2.entries path)) :
    (∀ (self self2 : ProjectItems) (path : QString),
      self.scan path (fs.readable path) (fs.entries path) true =
        self2.scan path (fs2.readable path) (fs2.entries path) true) ∧
    (∀ root : QString,
      (project.enumerateItems fs root).2.generateProject fs =
        (project.enumerateItems fs2 root).2.generateProject fs2) ∧
    (∀ argv : List QString, main fs argv = main fs2 argv) := by
  have hscan : ∀ (self self2 : ProjectItems) (path : QString),
      self.scan path (fs.readable path) (fs.entries path) true =
        self2.scan path (fs2.readable path) (fs2.entries path) true := by
    intro self self2 path
    rw [← hread]
    exact ProjectItems.scan_reordered self self2 path _ (hentries path)
  have hgen : ∀ (p : Project) (root : QString),
      (p.enumerateItems fs root).2.generateProject fs =
        (p.enumerateItems fs2 root).2.generateProject fs2 := by
    intro p root
    simp only [Project.enumerateItems, Project.generateProject, Project.streamText, ← hopen,
      hscan p.m_project p.m_project root]
  have hE : ∀ (p : Project) (root : QString),
      p.enumerateItems fs2 root = p.enumerateItems fs root := by
    intro p root
    simp only [Project.enumerateItems, hscan p.m_project p.m_project root]
  have hG : ∀ p : Project, p.generateProject fs2 = p.generateProject fs := by
    intro p
    simp only [Project.generateProject, hopen]
  refine ⟨hscan, hgen project, fun argv => ?_⟩
  unfold main
  simp only [← hname, ← hdir, ← hexists, hE, hG]

set_option maxRecDepth 100000 in
theorem C7_enumeration_order_irrelevant_witness :
    ((∀ (self self2 : ProjectItems) (path : QString),
      self.scan path (sampleOrderA.readable path) (sampleOrderA.entries path) true =
        self2.scan path (sampleOrderB.readable path) (sampleOrderB.entries path) true) ∧
    (∀ root : QString,
      (Project.new.enumerateItems sampleOrderA root).2.generateProject sampleOrderA =
        (Project.new.enumerateItems sampleOrderB root).2.generateProject sampleOrderB) ∧
    (∀ argv : List QString, main sampleOrderA argv = main sampleOrderB argv)) ∧
    main sampleOrderA [qstr "qpfg", qstr "out.pro"] =
      some (0, [Effect.scanned (qstr "/r"), Effect.opened (qstr "/r/out.pro") true,
        Effect.written (qstr "/r/out.pro")
          (qstr "TEMPLATE = app\n\nHEADERS = \\\n  a.h \\\n  b.h\n\nSOURCES = \\\n  sub/x.c \\\n  sub/y.c\n")]) :=
  ⟨C7_enumeration_order_irrelevant sampleOrderA sampleOrderB Project.new rfl rfl rfl rfl rfl
    (fun _ => Entry.ReorderedList.trans
      (Entry.ReorderedList.swap _ _ _)
      (Entry.ReorderedList.cons
        (Entry.Reordered.dir _ _ _ (Entry.ReorderedList.swap _ _ _))
        (Entry.ReorderedList.cons (Entry.Reordered.file _ _)
          (Entry.ReorderedList.cons (Entry.Reordered.file _ _) Entry.ReorderedList.nil)))),
   by decide⟩

/-! ## The command line -/

theorem Options.loop_eq (args : List QString) :
    ∀ (fuel i : Nat) (self : Options), args.length - i ≤ fuel →
      Options.loop args fuel i self =
        some { m_options := self.m_options ++ Spec.parseTokens (args.drop i) } := by
  intro fuel
  induction fuel with
  | zero =>
    intro i self hf
    have hi : ¬ i < args.length := by omega
    have hd : args.drop i = [] := List.drop_eq_nil_of_le (by omega)
    simp [Options.loop, hi, hd, Spec.parseTokens]
  | succ k ih =>
    intro i self hf
    by_cases hi : i < args.length
    · have hd : args.drop i = args[i] :: args.drop (i + 1) := List.drop_eq_getElem_cons hi
      have hg : args.getD i [] = args[i] := by simp [List.getD, List.getElem?_eq_getElem hi]
      by_cases hi1 : i + 1 < args.length
      · have hd1 : args.drop (i + 1) = args[i + 1] :: args.drop (i + 2) :=
          List.drop_eq_getElem_cons hi1
        have hg1 : args.getD (i + 1) [] = args[i + 1] := by
          simp [List.getD, List.getElem?_eq_getElem hi1]
        have hlt : i < args.length - 1 := by omega
        rw [Options.loop, if_pos hi, hg, hg1, if_pos hlt, hd, hd1, Spec.parseTokens]
        by_cases h1 : (args[i]).startsWith (qstr "--") = true
        · by_cases h2 : (args[i + 1]).startsWith (qstr "--") = true
          · rw [if_pos h1, if_pos h2, if_pos h1, if_pos h2, ih _ _ (by omega), hd1]
            simp [Options.addFlag]
          · rw [if_pos h1, if_neg h2, if_pos h1, if_neg h2, ih _ _ (by omega)]
            simp [Options.addOption]
        · rw [if_neg h1, if_neg h1, ih _ _ (by omega), hd1]
          simp [Options.addValue]
      · have hd1 : args.drop (i + 1) = [] := List.drop_eq_nil_of_le (by omega)
        have hlt : ¬ i < args.length - 1 := by omega
        rw [Options.loop, if_pos hi, hg, if_neg hlt, hd, hd1, Spec.parseTokens]
        by_cases h1 : (args[i]).startsWith (qstr "--") = true
        · rw [if_pos h1, if_pos h1, ih _ _ (by omega), hd1]
          simp [Options.addFlag, Spec.parseTokens]
        · rw [if_neg h1, if_neg h1, ih _ _ (by omega), hd1]
          simp [Options.addValue, Spec.parseTokens]
    · have hd : args.drop i = [] := List.drop_eq_nil_of_le (by omega)
      simp [Options.loop, hi, hd, Spec.parseTokens]

theorem Options.new_eq (argv : List QString) :
    Options.new argv = some { m_options := Spec.parseTokens (argv.drop 1) } := by
  unfold Options.new
  rw [Options.loop_eq argv argv.length 1 _ (by omega)]
  simp

theorem QString.startsWith_ne_nil {t : QString} (h : t.startsWith (qstr "--") = true) :
    (t == ([] : QString)) = false := by
  cases t with
  | nil => exact absurd h (by decide)
  | cons a as => rfl

theorem QString.ne_nil_of_startsWith {t : QString} (h : t.startsWith (qstr "--") = true) :
    t ≠ [] := by
  intro hc
  subst hc
  exact absurd h (by decide)

theorem Spec.parseTokens_positionals :
    ∀ toks : List QString,
      (Spec.parseTokens toks).filter (fun option => option.name == ([] : QString)) =
        (Spec.positionals false toks).map (fun v => { name := [], value := some v })
  | [] => rfl
  | [t] => by
    by_cases h : t.startsWith (qstr "--") = true
    · simp [Spec.parseTokens, Spec.positionals, h, QString.ne_nil_of_startsWith h]
    · simp [Spec.parseTokens, Spec.positionals, h]
  | t :: u :: rest => by
    have ih1 := Spec.parseTokens_positionals (u :: rest)
    have ih2 := Spec.parseTokens_positionals rest
    by_cases h : t.startsWith (qstr "--") = true
    · by_cases h2 : u.startsWith (qstr "--") = true
      · rw [Spec.parseTokens, if_pos h, if_pos h2, List.filter_cons_of_neg
          (by simp [QString.startsWith_ne_nil h]), ih1]
        simp [Spec.positionals, h, h2]
      · rw [Spec.parseTokens, if_pos h, if_neg h2, List.filter_cons_of_neg
          (by simp [QString.startsWith_ne_nil h]), ih2]
        simp [Spec.positionals, h, h2]
    · rw [Spec.parseTokens, if_neg h, List.filter_cons_of_pos (by simp), ih1]
      simp [Spec.positionals, h]

theorem Options.options_eq_filter (self : Options) (name : QString) :
    self.options name = self.m_options.filter (fun option => option.name == name) := by
  unfold Options.options
  suffices h : ∀ (l acc : List CliOption),
      l.foldl (fun result option => if option.name == name then result ++ [option] else result)
        acc = acc ++ l.filter (fun option => option.name == name) by
    simpa using h self.m_options []
  intro l
  induction l with
  | nil => intro acc; simp
  | cons x xs ih =>
    intro acc
    rw [List.foldl_cons, ih]
    by_cases hx : (x.name == name) = true
    · simp [hx]
    · simp [hx]

theorem Options.value_last (argv : List QString) :
    (⟨Spec.parseTokens (argv.drop 1)⟩ : Options).value [] (-1) =
      some (Spec.positionalValues argv).getLast? := by
  unfold Options.value
  rw [Options.options_eq_filter]
  simp only [Spec.parseTokens_positionals, Spec.positionalValues]
  cases hp : Spec.positionals false (argv.drop 1) with
  | nil => simp
  | cons a l =>
    have hlen : ¬ ((List.map (fun v => ({ name := [], value := some v } : CliOption))
        (a :: l)).length = 0 ∧ ((-1 : Int) ≥ ((List.map
          (fun v => ({ name := [], value := some v } : CliOption)) (a :: l)).length : Int) ∨
          (-1 : Int) < 0)) := by
      simp
    rw [if_neg hlen, if_pos trivial, List.getLast?_map, Option.map_map]
    rw [List.getLast?_eq_getLast _ (List.cons_ne_nil a l)]
    rfl

/-- C8: when the argument vector contains a positional value, a token after `argv[0]`
that does not start with `--` and does not directly follow a token that starts with
`--`, the constructor of `Options` returns and `Options::value("", -1)`, from which
`main` takes the output file name, is the last positional value. -/
theorem C8_output_is_last_positional (argv : List QString)
    (h : Spec.positionalValues argv ≠ []) :
    ∃ options, Options.new argv = some options ∧
      options.value [] (-1) = some (some ((Spec.positionalValues argv).getLast h)) := by
  refine ⟨_, Options.new_eq argv, ?_⟩
  rw [Options.value_last, List.getLast?_eq_getLast _ h]

theorem C8_output_is_last_positional_witness :
    Spec.positionalValues
        [qstr "qpfg", qstr "--verbose", qstr "--root", qstr "dir", qstr "a.pro", qstr "--x",
          qstr "y", qstr "b.pro", qstr "--flag"] = [qstr "a.pro", qstr "b.pro"] ∧
    ∃ options,
      Options.new [qstr "qpfg", qstr "--verbose", qstr "--root", qstr "dir", qstr "a.pro",
        qstr "--x", qstr "y", qstr "b.pro", qstr "--flag"] = some options ∧
      options.value [] (-1) = some (some (qstr "b.pro")) :=
  ⟨by decide,
   C8_output_is_last_positional
     [qstr "qpfg", qstr "--verbose", qstr "--root", qstr "dir", qstr "a.pro", qstr "--x",
       qstr "y", qstr "b.pro", qstr "--flag"] (by decide)⟩

/-- C9: the constructor of `Options` returns for every argument vector; it ignores
`argv[0]` and reads the other tokens from left to right: a token that starts with `--`
followed by a token that does not is one named option and both are consumed, a token
that starts with `--` followed by another such token or by nothing is a flag with the
null value, and every other token is a value recorded with the empty name. -/
theorem C9_constructor_parses_tokens :
    (∀ argv : List QString,
      Options.new argv = some { m_options := Spec.parseTokens (argv.drop 1) }) ∧
    Options.new [] = some { m_options := [] } ∧
    Options.new [qstr "--zero"] = some { m_options := [] } ∧
    Options.new [qstr "--zero", qstr "--a", qstr "x", qstr "y", qstr "--b", qstr "--c"] =
      some { m_options :=
        [{ name := qstr "--a", value := some (qstr "x") }, { name := [], value := some (qstr "y") },
         { name := qstr "--b", value := none }, { name := qstr "--c", value := none }] } ∧
    Options.new [qstr "qpfg", qstr "x", qstr "--a", qstr "-b", qstr ""] =
      some { m_options :=
        [{ name := [], value := some (qstr "x") },
         { name := qstr "--a", value := some (qstr "-b") }, { name := [], value := some [] }] } := by
  exact ⟨Options.new_eq, by decide, by decide, by decide, by decide⟩

/-! ## The exit code -/

theorem main_eq (fs : FileSystem) (argv : List QString) :
    main fs argv =
      match (Spec.positionalValues argv).getLast? with
      | none => some (-1, [])
      | some name =>
        if fs.dirExists (fs.absoluteDir name) = true then
          if fs.canOpen (fs.absoluteFilePath name) = true then
            some (0, [Effect.scanned (fs.absoluteDir name),
              Effect.opened (fs.absoluteFilePath name) true,
              Effect.written (fs.absoluteFilePath name)
                ((Project.new.setOutputFileName (fs.absoluteFilePath name)).enumerateItems fs
                  (fs.absoluteDir name)).2.streamText])
          else
            some (-1, [Effect.scanned (fs.absoluteDir name),
              Effect.opened (fs.absoluteFilePath name) false])
        else some (-1, []) := by
  unfold main
  rw [Options.new_eq]
  simp only []
  rw [Options.value_last]
  cases (Spec.positionalValues argv).getLast? with
  | none => rfl
  | some name =>
    simp only []
    by_cases hd : fs.dirExists (fs.absoluteDir name) = true
    · by_cases ho : fs.canOpen (fs.absoluteFilePath name) = true
      · simp [hd, ho, Project.enumerateItems, Project.generateProject, Project.setOutputFileName]
      · simp [hd, ho, Project.enumerateItems, Project.generateProject, Project.setOutputFileName]
    · simp [hd]

/-- C10: `main` returns, with code 0 or -1, and the code is 0 exactly when an output path
was resolved from the arguments (there is a positional value, the last of which is the
path), the directory that contains the output path exists and the output file could be
opened for writing; so in each of the three failure cases the code is not 0. -/
theorem C10_exit_code (fs : FileSystem) (argv : List QString) :
    ∃ code effects, main fs argv = some (code, effects) ∧
      (code = 0 ∨ code = -1) ∧
      (∃ options, Options.new argv = some options ∧
        options.value [] (-1) = some (Spec.positionalValues argv).getLast?) ∧
      (code = 0 ↔
        ∃ name, (Spec.positionalValues argv).getLast? = some name ∧
          fs.dirExists (fs.absoluteDir name) = true ∧
          fs.canOpen (fs.absoluteFilePath name) = true) := by
  rw [main_eq]
  cases hl : (Spec.positionalValues argv).getLast? with
  | none =>
    exact ⟨-1, [], rfl, Or.inr rfl,
      ⟨_, Options.new_eq argv, by rw [Options.value_last, hl]⟩, by simp⟩
  | some name =>
    have hres : ∃ options, Options.new argv = some options ∧
        options.value [] (-1) = some (some name) :=
      ⟨_, Options.new_eq argv, by rw [Options.value_last, hl]⟩
    simp only []
    by_cases hd : fs.dirExists (fs.absoluteDir name) = true
    · by_cases ho : fs.canOpen (fs.absoluteFilePath name) = true
      · rw [if_pos hd, if_pos ho]
        exact ⟨0, _, rfl, Or.inl rfl, hres, by simp [hd, ho]⟩
      · rw [if_pos hd, if_neg ho]
        exact ⟨-1, _, rfl, Or.inr rfl, hres, by simp [hd, ho]⟩
    · rw [if_neg hd]
      exact ⟨-1, [], rfl, Or.inr rfl, hres, by simp [hd]⟩

/-! ## Failure paths -/

/-- C11: on every failure path nothing is written. Without a positional value `main`
returns -1 with no effect on the file system: no scan, no open. When the directory of the
output path does not exist `main` returns -1, again without scan and without open. When
the output file cannot be opened `Project::generateProject` returns false and its only
effect is the failed open, no text is written; `main` then returns -1 after the scan and
the failed open. So a run of `main` that does not return 0 writes no text. -/
theorem C11_failure_writes_nothing (fs : FileSystem) :
    (∀ argv : List QString, Spec.positionalValues argv = [] → main fs argv = some (-1, [])) ∧
    (∀ (argv : List QString) (name : QString),
      (Spec.positionalValues argv).getLast? = some name →
      fs.dirExists (fs.absoluteDir name) = false → main fs argv = some (-1, [])) ∧
    (∀ project : Project, fs.canOpen project.m_outputFileName = false →
      project.generateProject fs = (false, [Effect.opened project.m_outputFileName false])) ∧
    (∀ (argv : List QString) (name : QString),
      (Spec.positionalValues argv).getLast? = some name →
      fs.dirExists (fs.absoluteDir name) = true →
      fs.canOpen (fs.absoluteFilePath name) = false →
      main fs argv = some (-1, [Effect.scanned (fs.absoluteDir name),
        Effect.opened (fs.absoluteFilePath name) false])) ∧
    (∀ (argv : List QString) (code : Int) (effects : List Effect),
      main fs argv = some (code, effects) → code ≠ 0 →
      ∀ (file text : QString), Effect.written file text ∉ effects) := by
  refine ⟨?_, ?_, ?_, ?_, ?_⟩
  · intro argv h
    rw [main_eq, h]
    rfl
  · intro argv name hl hd
    rw [main_eq, hl]
    simp [hd]
  · intro project ho
    simp [Project.generateProject, ho]
  · intro argv name hl hd ho
    rw [main_eq, hl]
    simp [hd, ho]
  · intro argv code effects hm hc file text
    rw [main_eq] at hm
    cases hl : (Spec.positionalValues argv).getLast? with
    | none =>
      rw [hl] at hm
      simp only [Option.some.injEq, Prod.mk.injEq] at hm
      rw [← hm.2]
      simp
    | some name =>
      rw [hl] at hm
      simp only [] at hm
      by_cases hd : fs.dirExists (fs.absoluteDir name) = true
      · by_cases ho : fs.canOpen (fs.absoluteFilePath name) = true
        · rw [if_pos hd, if_pos ho] at hm
          simp only [Option.some.injEq, Prod.mk.injEq] at hm
          exact absurd hm.1.symm hc
        · rw [if_pos hd, if_neg ho] at hm
          simp only [Option.some.injEq, Prod.mk.injEq] at hm
          rw [← hm.2]
          simp
      · rw [if_neg hd] at hm
        simp only [Option.some.injEq, Prod.mk.injEq] at hm
        rw [← hm.2]
        simp

set_option maxRecDepth 100000 in
theorem C11_failure_writes_nothing_witness :
    main sampleReadOnly [qstr "qpfg"] = some (-1, []) ∧
    main sampleReadOnly [qstr "qpfg", qstr "--out", qstr "x.pro"] = some (-1, []) ∧
    main sampleNoDirectory [qstr "qpfg", qstr "x.pro"] = some (-1, []) ∧
    sampleProject.generateProject sampleReadOnly =
      (false, [Effect.opened sampleProject.m_outputFileName false]) ∧
    main sampleReadOnly [qstr "qpfg", qstr "x.pro"] =
      some (-1, [Effect.scanned (qstr "/r"), Effect.opened (qstr "/r/x.pro") false]) ∧
    (∀ (file text : QString), Effect.written file text ∉
      [Effect.scanned (qstr "/r"), Effect.opened (qstr "/r/x.pro") false]) :=
  ⟨(C11_failure_writes_nothing sampleReadOnly).1 [qstr "qpfg"] (by decide),
   (C11_failure_writes_nothing sampleReadOnly).1 [qstr "qpfg", qstr "--out", qstr "x.pro"]
     (by decide),
   (C11_failure_writes_nothing sampleNoDirectory).2.1 [qstr "qpfg", qstr "x.pro"]
     (qstr "x.pro") (by decide) rfl,
   (C11_failure_writes_nothing sampleReadOnly).2.2.1 sampleProject rfl,
   (C11_failure_writes_nothing sampleReadOnly).2.2.2.1 [qstr "qpfg", qstr "x.pro"]
     (qstr "x.pro") (by decide) rfl rfl,
   (C11_failure_writes_nothing sampleReadOnly).2.2.2.2 [qstr "qpfg", qstr "x.pro"] (-1) _
     (by decide) (by decide)⟩

/-! ## Lookup of option values -/

theorem Options.value_of_empty (self : Options) (name : QString) (index : Int)
    (h : self.options name = []) : self.value name index = some none := by
  unfold Options.value
  simp only [h, List.length_nil, Nat.cast_zero]
  have : (0 : Int) ≤ index ∨ index < 0 := by omega
  simp [this]

theorem Options.value_in_range (self : Options) (name : QString) (i : Nat)
    (hi : i < (self.options name).length) :
    self.value name (i : Int) = some ((self.options name).get ⟨i, hi⟩).value := by
  unfold Options.value
  have h1 : ¬ ((self.options name).length = 0 ∧
      ((i : Int) ≥ ((self.options name).length : Int) ∨ (i : Int) < 0)) := by omega
  have h2 : ¬ ((i : Int) = -1) := by omega
  have h3 : (0 : Int) ≤ (i : Int) := by omega
  simp only []
  rw [if_neg h1, if_neg h2, if_pos h3, Int.toNat_ofNat, List.getElem?_eq_getElem hi]
  rfl

theorem Options.value_last_occurrence (self : Options) (name : QString)
    (h : self.options name ≠ []) :
    self.value name (-1) = some ((self.options name).getLast h).value := by
  unfold Options.value
  have hlen : (self.options name).length ≠ 0 := fun hc => h (List.length_eq_zero.1 hc)
  have h1 : ¬ ((self.options name).length = 0 ∧
      ((-1 : Int) ≥ ((self.options name).length : Int) ∨ (-1 : Int) < 0)) := fun hc => hlen hc.1
  simp only []
  rw [if_neg h1, if_pos trivial, List.getLast?_eq_getLast _ h]
  rfl

theorem Options.value_out_of_range (self : Options) (name : QString) (index : Int)
    (h : self.options name ≠ [])
    (hidx : index ≥ ((self.options name).length : Int) ∨ index < -1) :
    self.value name index = none := by
  unfold Options.value
  have hlen : (self.options name).length ≠ 0 := fun hc => h (List.length_eq_zero.1 hc)
  have h1 : ¬ ((self.options name).length = 0 ∧
      (index ≥ ((self.options name).length : Int) ∨ index < 0)) := fun hc => hlen hc.1
  have h2 : ¬ (index = -1) := by omega
  simp only []
  rw [if_neg h1, if_neg h2]
  by_cases h3 : (0 : Int) ≤ index
  · rw [if_pos h3]
    have : (self.options name).length ≤ index.toNat := by omega
    rw [List.getElem?_eq_none this]
    rfl
  · rw [if_neg h3]

/-- C12, the code at the failing input: for the command line `qpfg --bob x` the constructor
records one option named `--bob`; `value("--bob", 1)` and `value("--bob", -2)` do not
return the null string but index the one-element list outside its range, while a name
without any option gives the null string at every index. -/
theorem C12_value_reads_out_of_range :
    Options.new [qstr "qpfg", qstr "--bob", qstr "x"] = some sampleBob ∧
    (sampleBob.options (qstr "--bob")).length = 1 ∧
    sampleBob.value (qstr "--bob") 0 = some (some (qstr "x")) ∧
    sampleBob.value (qstr "--bob") 1 = none ∧
    sampleBob.value (qstr "--bob") (-2) = none ∧
    sampleBob.value (qstr "--alice") 1 = some none ∧
    sampleBob.value (qstr "--alice") (-2) = some none := by
  decide

/-- C13: for a name with at least one option, `Options::options(name)` lists the options
with that name in the order of `Options::options()`, `Options::value(name, index)` with
`0 <= index < n` is the value of the option at that position of the list, and
`Options::value(name, -1)` equals `Options::value(name, n - 1)`, the value of the last
option with that name. -/
theorem C13_value_indexes_occurrences (self : Options) (name : QString)
    (h : self.options name ≠ []) :
    self.options name = self.m_options.filter (fun option => option.name == name) ∧
    (self.options name).Sublist self.m_options ∧
    (∀ (i : Nat) (hi : i < (self.options name).length),
      self.value name (i : Int) = some ((self.options name).get ⟨i, hi⟩).value) ∧
    self.value name (-1) = self.value name (((self.options name).length : Int) - 1) ∧
    self.value name (-1) = some ((self.options name).getLast h).value := by
  have hlen : 0 < (self.options name).length := List.length_pos.2 h
  refine ⟨Options.options_eq_filter self name, ?_, Options.value_in_range self name, ?_,
    Options.value_last_occurrence self name h⟩
  · rw [Options.options_eq_filter]
    exact List.filter_sublist _
  · have hcast : (((self.options name).length : Int) - 1) =
        (((self.options name).length - 1 : Nat) : Int) := by omega
    rw [hcast, Options.value_in_range self name _ (by omega),
      Options.value_last_occurrence self name h, List.getLast_eq_getElem]
    rfl

theorem C13_value_indexes_occurrences_witness :
    sampleRepeated.options (qstr "--bob") =
      [{ name := qstr "--bob", value := some (qstr "x") },
       { name := qstr "--bob", value := some (qstr "z") }] ∧
    sampleRepeated.value (qstr "--bob") 0 = some (some (qstr "x")) ∧
    sampleRepeated.value (qstr "--bob") 1 = some (some (qstr "z")) ∧
    sampleRepeated.value (qstr "--bob") (-1) = some (some (qstr "z")) ∧
    (sampleRepeated.value (qstr "--bob") (-1) =
      sampleRepeated.value (qstr "--bob")
        (((sampleRepeated.options (qstr "--bob")).length : Int) - 1)) :=
  ⟨by decide, by decide, by decide, by decide,
   (C13_value_indexes_occurrences sampleRepeated (qstr "--bob") (by decide)).2.2.2.1⟩

/-! ## Sorting once, clearing and keeping -/

mutual
theorem Spec.collectEntry_eq (path : QString) (rel : List QString) :
    ∀ (e : Entry) (acc : ProjectItems),
      (Spec.collectEntry path e acc).m_headerFiles =
        acc.m_headerFiles ++ Node.found FileKind.Header (Entry.nodes path rel true e) ∧
      (Spec.collectEntry path e acc).m_sourceFiles =
        acc.m_sourceFiles ++ Node.found FileKind.Source (Entry.nodes path rel true e)
  | .file n h, acc => by
    cases h with
    | true => simp [Spec.collectEntry, Entry.nodes, Node.found]
    | false =>
      cases hc : ProjectItems.classify n with
      | none => simp [Spec.collectEntry, Entry.nodes, Node.found, hc]
      | some k =>
        cases k with
        | Header => simp [Spec.collectEntry, Entry.nodes, Node.found, hc]
        | Source => simp [Spec.collectEntry, Entry.nodes, Node.found, hc]
  | .special n h, acc => by
    simp [Spec.collectEntry, Entry.nodes, Node.found]
  | .dir n h r cs, acc => by
    cases h with
    | true =>
      have hinv := Entry.nodesList_invisible (QDir.filePath path n) (rel ++ [n]) cs
      simp only [Spec.collectEntry, Entry.nodes, if_true, Node.found_dir_cons,
        Bool.not_true, Bool.and_false, Bool.false_and]
      rw [Node.found_invisible _ _ hinv, Node.found_invisible _ _ hinv]
      simp
    | false =>
      cases r with
      | true =>
        have ih := Spec.collectLoop_eq (QDir.filePath path n) (rel ++ [n]) cs acc
        simp only [Spec.collectEntry, Entry.nodes, if_true, Node.found_dir_cons,
          Bool.not_false, Bool.and_true, Bool.false_eq_true, if_false]
        exact ih
      | false =>
        have hinv := Entry.nodesList_invisible (QDir.filePath path n) (rel ++ [n]) cs
        simp only [Spec.collectEntry, Entry.nodes, Node.found_dir_cons,
          Bool.not_false, Bool.and_true, Bool.and_false, Bool.false_eq_true, if_false]
        rw [Node.found_invisible _ _ hinv, Node.found_invisible _ _ hinv]
        simp
theorem Spec.collectLoop_eq (path : QString) (rel : List QString) :
    ∀ (cs : List Entry) (acc : ProjectItems),
      (Spec.collectLoop path cs acc).m_headerFiles =
        acc.m_headerFiles ++ Node.found FileKind.Header (Entry.nodesList path rel true cs) ∧
      (Spec.collectLoop path cs acc).m_sourceFiles =
        acc.m_sourceFiles ++ Node.found FileKind.Source (Entry.nodesList path rel true cs)
  | [], acc => by simp [Spec.collectLoop, Entry.nodesList, Node.found]
  | e :: rest, acc => by
    have h1 := Spec.collectEntry_eq path rel e acc
    have h2 := Spec.collectLoop_eq path rel rest (Spec.collectEntry path e acc)
    simp only [Spec.collectLoop, Entry.nodesList, Node.found_append]
    rw [h2.1, h2.2, h1.1, h1.2]
    simp
end

theorem Spec.scanOnce_eq (path : QString) (readable : Bool) (children : List Entry) :
    Spec.scanOnce path readable children =
      { m_headerFiles :=
          QStringList.sort (Node.found FileKind.Header (Entry.nodesList path [] readable children)),
        m_sourceFiles :=
          QStringList.sort
            (Node.found FileKind.Source (Entry.nodesList path [] readable children)) } := by
  cases readable with
  | true =>
    have h := Spec.collectLoop_eq path [] children ProjectItems.new
    simp only [ProjectItems.new, List.nil_append] at h
    simp only [Spec.scanOnce, if_true, ProjectItems.new, h.1, h.2]
  | false =>
    have hinv := Entry.nodesList_invisible path [] children
    simp [Spec.scanOnce, ProjectItems.new, Node.found_invisible _ _ hinv]

theorem ProjectItems.scan_clear_eq (self : ProjectItems) (path : QString) (readable : Bool)
    (children : List Entry) :
    self.scan path readable children true =
      { m_headerFiles :=
          QStringList.sort (Node.found FileKind.Header (Entry.nodesList path [] readable children)),
        m_sourceFiles :=
          QStringList.sort
            (Node.found FileKind.Source (Entry.nodesList path [] readable children)) } := by
  obtain ⟨h1, h2⟩ := ProjectItems.scan_clear self path readable children
  cases hs : self.scan path readable children true with
  | mk a b =>
    rw [hs] at h1 h2
    simp only [ProjectItems.headerFiles, ProjectItems.sourceFiles] at h1 h2
    rw [h1, h2]

theorem ProjectItems.scan_keep_eq (self : ProjectItems) (path : QString) (readable : Bool)
    (children : List Entry) :
    self.scan path readable children false =
      { m_headerFiles := QStringList.sort (self.m_headerFiles ++
          Node.found FileKind.Header (Entry.nodesList path [] readable children)),
        m_sourceFiles := QStringList.sort (self.m_sourceFiles ++
          Node.found FileKind.Source (Entry.nodesList path [] readable children)) } := by
  cases readable with
  | true =>
    have h := ProjectItems.scanLoop_perm path [] children self
    simp only [ProjectItems.scan, if_true, ProjectItems.sorted, Bool.false_eq_true, if_false]
    rw [QStringList.sort_eq_of_perm h.1, QStringList.sort_eq_of_perm h.2]
  | false =>
    have hinv := Entry.nodesList_invisible path [] children
    simp [ProjectItems.scan, ProjectItems.sorted, Node.found_invisible _ _ hinv]

/-- C14: for every directory tree, in whatever order its directories enumerate their
entries, the lists produced by a clearing `ProjectItems::scan` are those of the reference
procedure that traverses the whole tree depth-first, appends the matches to the two
collections without sorting and sorts each collection once at the end; the sorts that
the code performs on the way do not change the result. -/
theorem C14_scan_is_one_final_sort :
    (∀ (self : ProjectItems) (path : QString) (readable : Bool) (children : List Entry),
      self.scan path readable children true = Spec.scanOnce path readable children) ∧
    (∀ (self : ProjectItems) (path : QString) (readable : Bool) (children : List Entry),
      (self.scan path readable children true).headerFiles =
        QStringList.sort
          (if readable then Spec.collectLoop path children ProjectItems.new
            else ProjectItems.new).m_headerFiles ∧
      (self.scan path readable children true).sourceFiles =
        QStringList.sort
          (if readable then Spec.collectLoop path children ProjectItems.new
            else ProjectItems.new).m_sourceFiles) ∧
    (Spec.collectLoop (qstr "/r") sampleUnsorted ProjectItems.new).m_headerFiles =
      [qstr "/r/z.h", qstr "/r/m/y.h", qstr "/r/m/b.h", qstr "/r/a.h"] ∧
    (ProjectItems.new.scan (qstr "/r") true sampleUnsorted true).headerFiles =
      [qstr "/r/a.h", qstr "/r/m/b.h", qstr "/r/m/y.h", qstr "/r/z.h"] := by
  have h : ∀ (self : ProjectItems) (path : QString) (readable : Bool) (children : List Entry),
      self.scan path readable children true = Spec.scanOnce path readable children := by
    intro self path readable children
    rw [ProjectItems.scan_clear_eq, Spec.scanOnce_eq]
  refine ⟨h, ?_, by decide, by decide⟩
  intro self path readable children
  rw [h]
  exact ⟨rfl, rfl⟩

/-- C15: a clearing scan discards the earlier content: whatever the object held, the
result is that of the same scan on a freshly constructed object, and scanning the same
tree twice in a row gives what one scan gives. A scan with `clear = false` keeps the
earlier entries: each resulting list is the sorted sequence of the earlier entries
together with the entries a fresh scan finds. -/
theorem C15_clear_discards_keep_merges (self : ProjectItems) (path : QString)
    (readable : Bool) (children : List Entry) :
    self.scan path readable children true =
      ProjectItems.new.scan path readable children true ∧
    (self.scan path readable children true).scan path readable children true =
      self.scan path readable children true ∧
    (self.scan path readable children false).headerFiles =
      QStringList.sort (self.headerFiles ++
        (ProjectItems.new.scan path readable children true).headerFiles) ∧
    (self.scan path readable children false).sourceFiles =
      QStringList.sort (self.sourceFiles ++
        (ProjectItems.new.scan path readable children true).sourceFiles) ∧
    (self.scan path readable children false).headerFiles.Perm
      (self.headerFiles ++ (ProjectItems.new.scan path readable children true).headerFiles) ∧
    (self.scan path readable children false).sourceFiles.Perm
      (self.sourceFiles ++ (ProjectItems.new.scan path readable children true).sourceFiles) := by
  have hH : (self.scan path readable children false).headerFiles =
      QStringList.sort (self.headerFiles ++
        (ProjectItems.new.scan path readable children true).headerFiles) := by
    rw [ProjectItems.scan_keep_eq, ProjectItems.scan_clear_eq]
    exact QStringList.sort_eq_of_perm
      (List.Perm.append_left _ (QStringList.sort_perm _).symm)
  have hS : (self.scan path readable children false).sourceFiles =
      QStringList.sort (self.sourceFiles ++
        (ProjectItems.new.scan path readable children true).sourceFiles) := by
    rw [ProjectItems.scan_keep_eq, ProjectItems.scan_clear_eq]
    exact QStringList.sort_eq_of_perm
      (List.Perm.append_left _ (QStringList.sort_perm _).symm)
  refine ⟨?_, ?_, hH, hS, ?_, ?_⟩
  · rw [ProjectItems.scan_clear_eq, ProjectItems.scan_clear_eq]
  · rw [ProjectItems.scan_clear_eq, ProjectItems.scan_clear_eq]
  · rw [hH]; exact QStringList.sort_perm _
  · rw [hS]; exact QStringList.sort_perm _

/-! ## Shape and completeness of the parse -/

theorem QString.isEmpty_of_startsWith {t : QString} (h : t.startsWith (qstr "--") = true) :
    t.isEmpty = false := by
  cases t with
  | nil => exact absurd h (by decide)
  | cons a as => rfl

theorem Spec.parseTokens_shape :
    ∀ toks : List QString, ∀ option ∈ Spec.parseTokens toks, Spec.entryShape option = true
  | [], option, h => by simp [Spec.parseTokens] at h
  | [t], option, h => by
    by_cases h1 : t.startsWith (qstr "--") = true
    · simp only [Spec.parseTokens, h1, if_true, List.mem_singleton] at h
      subst h
      simp [Spec.entryShape, QString.isEmpty_of_startsWith h1, h1]
    · simp only [Spec.parseTokens, h1, if_false, List.mem_singleton, Bool.false_eq_true] at h
      subst h
      simp [Spec.entryShape, h1]
  | t :: u :: rest, option, h => by
    have ih1 := Spec.parseTokens_shape (u :: rest) option
    have ih2 := Spec.parseTokens_shape rest option
    by_cases h1 : t.startsWith (qstr "--") = true
    · by_cases h2 : u.startsWith (qstr "--") = true
      · simp only [Spec.parseTokens, h1, h2, if_true, List.mem_cons] at h
        rcases h with h | h
        · subst h
          simp [Spec.entryShape, QString.isEmpty_of_startsWith h1, h1]
        · exact ih1 h
      · simp only [Spec.parseTokens, h1, h2, if_true, if_false, List.mem_cons,
          Bool.false_eq_true] at h
        rcases h with h | h
        · subst h
          simp [Spec.entryShape, QString.isEmpty_of_startsWith h1, h1, h2]
        · exact ih2 h
    · simp only [Spec.parseTokens, h1, if_false, List.mem_cons, Bool.false_eq_true] at h
      rcases h with h | h
      · subst h
        simp [Spec.entryShape, h1]
      · exact ih1 h

theorem Spec.parseTokens_roundtrip :
    ∀ toks : List QString, (Spec.parseTokens toks).flatMap Spec.tokensOf = toks
  | [] => rfl
  | [t] => by
    by_cases h1 : t.startsWith (qstr "--") = true
    · simp [Spec.parseTokens, Spec.tokensOf, h1, QString.isEmpty_of_startsWith h1]
    · simp [Spec.parseTokens, Spec.tokensOf, h1]
  | t :: u :: rest => by
    have ih1 := Spec.parseTokens_roundtrip (u :: rest)
    have ih2 := Spec.parseTokens_roundtrip rest
    by_cases h1 : t.startsWith (qstr "--") = true
    · by_cases h2 : u.startsWith (qstr "--") = true
      · rw [Spec.parseTokens, if_pos h1, if_pos h2, List.flatMap_cons, ih1]
        simp [Spec.tokensOf, QString.isEmpty_of_startsWith h1]
      · rw [Spec.parseTokens, if_pos h1, if_neg h2, List.flatMap_cons, ih2]
        simp [Spec.tokensOf, QString.isEmpty_of_startsWith h1]
    · rw [Spec.parseTokens, if_neg h1, List.flatMap_cons, ih1]
      simp [Spec.tokensOf]

/-- C16: every entry that the constructor of `Options` produces has the documented
shape: if its name is not empty, the name starts with `--` and the value is null or a
string that does not start with `--`; if its name is empty, the value is not null and
does not start with `--`. -/
theorem C16_entries_have_documented_shape (argv : List QString) :
    ∃ options, Options.new argv = some options ∧
      ∀ option ∈ options.m_options,
        (option.name ≠ [] →
          option.name.startsWith (qstr "--") = true ∧
          (option.value = none ∨
            ∃ v, option.value = some v ∧ v.startsWith (qstr "--") = false)) ∧
        (option.name = [] →
          ∃ v, option.value = some v ∧ v.startsWith (qstr "--") = false) := by
  refine ⟨_, Options.new_eq argv, ?_⟩
  intro option hmem
  have hs := Spec.parseTokens_shape (argv.drop 1) option hmem
  unfold Spec.entryShape at hs
  constructor
  · intro hne
    have he : option.name.isEmpty = false := by
      cases hn : option.name with
      | nil => exact absurd hn hne
      | cons a as => rfl
    rw [he] at hs
    simp only [Bool.false_eq_true, if_false, Bool.and_eq_true] at hs
    refine ⟨hs.1, ?_⟩
    cases hv : option.value with
    | none => exact Or.inl rfl
    | some v =>
      right
      rw [hv] at hs
      exact ⟨v, rfl, by simpa using hs.2⟩
  · intro hnil
    rw [hnil] at hs
    simp only [List.isEmpty_nil, if_true] at hs
    cases hv : option.value with
    | none => rw [hv] at hs; exact absurd hs (by simp)
    | some v =>
      rw [hv] at hs
      exact ⟨v, rfl, by simpa using hs⟩

/-- C17: parsing loses and duplicates no argument: the constructor of `Options` returns
for every argument vector, and replacing each parsed entry, in order, by its value when
its name is empty, by its name when its value is null and by its name and its value
otherwise gives back exactly the tokens `argv[1]`, ..., `argv[argc-1]` in their order. -/
theorem C17_parse_keeps_every_token (argv : List QString) :
    ∃ options, Options.new argv = some options ∧
      options.m_options.flatMap Spec.tokensOf = argv.drop 1 :=
  ⟨_, Options.new_eq argv, Spec.parseTokens_roundtrip (argv.drop 1)⟩

/-! ## Order of the emitted entries -/

theorem QString.lt_append_left (b : QString) :
    ∀ x y : QString, QString.lt (b ++ x) (b ++ y) = QString.lt x y := by
  induction b with
  | nil => intro x y; rfl
  | cons c cs ih =>
    intro x y
    simp only [List.cons_append, QString.lt, Nat.lt_irrefl, if_false]
    exact ih x y

theorem ProjectItems.scan_relative (self : ProjectItems) (rootElements : List QString)
    (readable : Bool) (children : List Entry)
    (hroot : ∀ n ∈ rootElements, validName n = true) (htree : Entry.tree children = true)
    (file : QString)
    (hfile : file ∈ (self.scan (QDir.absolutePath rootElements) readable children
        true).headerFiles ∨
      file ∈ (self.scan (QDir.absolutePath rootElements) readable children true).sourceFiles) :
    QDir.entryBase (QDir.absolutePath rootElements) ++
      QDir.relativeFilePath (QDir.absolutePath rootElements) file = file := by
  obtain ⟨hH, hS⟩ := ProjectItems.scan_clear self (QDir.absolutePath rootElements) readable
    children
  rw [hH, hS, QStringList.mem_sort, QStringList.mem_sort, Node.mem_found, Node.mem_found] at hfile
  have hex : ∃ nd ∈ Entry.nodesList (QDir.absolutePath rootElements) [] readable children,
      nd.path = file := by
    rcases hfile with ⟨nd, h1, _, _, _, h3⟩ | ⟨nd, h1, _, _, _, h3⟩
    · exact ⟨nd, h1, h3⟩
    · exact ⟨nd, h1, h3⟩
  obtain ⟨nd, hmem, hpath⟩ := hex
  simp only [Entry.tree, Bool.and_eq_true, decide_eq_true_eq] at htree
  have hmem2 : nd ∈ Entry.nodesList (QDir.absolutePath (rootElements ++ [])) []
      readable children := by simpa using hmem
  obtain ⟨hp, hvalid, hne⟩ := Entry.nodesList_names rootElements hroot nd _ [] _
    (by simp) htree.1 hmem2
  rw [← hpath, hp, QDir.relativeFilePath_absolutePath rootElements nd.names hroot hvalid,
    ← QDir.filePath_eq]
  exact QDir.filePath_intercalate rootElements nd.names hroot hne

theorem ProjectItems.relative_pairwise (base : QString) (f : QString → QString)
    (l : List QString) (hl : List.Pairwise (fun a b => QString.lt a b = true) l)
    (hf : ∀ x ∈ l, base ++ f x = x) :
    List.Pairwise (fun a b => QString.lt a b = true) (l.map f) := by
  rw [List.pairwise_map]
  refine List.Pairwise.imp_of_mem ?_ hl
  intro a b ha hb hab
  rw [← hf a ha, ← hf b hb, QString.lt_append_left] at hab
  exact hab

/-- C18: the entries are ordered as relative paths too. For a project root and the
result of the scan of the directory tree below it, the root-relative paths written in the
`HEADERS` block, in the order in which they are written, are strictly ascending under the
comparison of `QString`, and so are those written in the `SOURCES` block: removing the
common root part from paths sorted as absolute paths keeps their order. -/
theorem C18_relative_entries_ascending (project : Project) (fs : FileSystem)
    (rootElements : List QString) (hroot : ∀ n ∈ rootElements, validName n = true)
    (htree : Entry.tree (fs.entries (QDir.absolutePath rootElements)) = true) :
    List.Pairwise (fun a b => QString.lt a b = true)
      ((project.enumerateItems fs (QDir.absolutePath rootElements)).2.m_project.headerFiles.map
        (QDir.relativeFilePath
          (project.enumerateItems fs (QDir.absolutePath rootElements)).2.m_projectRoot)) ∧
    List.Pairwise (fun a b => QString.lt a b = true)
      ((project.enumerateItems fs (QDir.absolutePath rootElements)).2.m_project.sourceFiles.map
        (QDir.relativeFilePath
          (project.enumerateItems fs (QDir.absolutePath rootElements)).2.m_projectRoot)) := by
  simp only [Project.enumerateItems]
  obtain ⟨hH, hS⟩ := ProjectItems.scan_clear project.m_project (QDir.absolutePath rootElements)
    (fs.readable (QDir.absolutePath rootElements)) (fs.entries (QDir.absolutePath rootElements))
  have hnd := Entry.tree_paths_nodup (QDir.absolutePath rootElements) []
    (fs.readable (QDir.absolutePath rootElements)) _ htree
  constructor
  · refine ProjectItems.relative_pairwise (QDir.entryBase (QDir.absolutePath rootElements)) _ _
      ?_ ?_
    · rw [hH]
      exact QStringList.sort_strict _ (Node.found_nodup _ _ hnd)
    · intro x hx
      exact ProjectItems.scan_relative _ rootElements _ _ hroot htree x (Or.inl hx)
  · refine ProjectItems.relative_pairwise (QDir.entryBase (QDir.absolutePath rootElements)) _ _
      ?_ ?_
    · rw [hS]
      exact QStringList.sort_strict _ (Node.found_nodup _ _ hnd)
    · intro x hx
      exact ProjectItems.scan_relative _ rootElements _ _ hroot htree x (Or.inr hx)

set_option maxRecDepth 100000 in
theorem C18_relative_entries_ascending_witness :
    (∀ n ∈ [qstr "r"], validName n = true) ∧
    Entry.tree (sampleNested.entries (QDir.absolutePath [qstr "r"])) = true ∧
    (Project.new.enumerateItems sampleNested
        (QDir.absolutePath [qstr "r"])).2.m_project.headerFiles.map
      (QDir.relativeFilePath (Project.new.enumerateItems sampleNested
        (QDir.absolutePath [qstr "r"])).2.m_projectRoot) = [qstr "a.h", qstr "a/x.h"] ∧
    (List.Pairwise (fun a b => QString.lt a b = true)
      ((Project.new.enumerateItems sampleNested
          (QDir.absolutePath [qstr "r"])).2.m_project.headerFiles.map
        (QDir.relativeFilePath (Project.new.enumerateItems sampleNested
          (QDir.absolutePath [qstr "r"])).2.m_projectRoot)) ∧
    List.Pairwise (fun a b => QString.lt a b = true)
      ((Project.new.enumerateItems sampleNested
          (QDir.absolutePath [qstr "r"])).2.m_project.sourceFiles.map
        (QDir.relativeFilePath (Project.new.enumerateItems sampleNested
          (QDir.absolutePath [qstr "r"])).2.m_projectRoot))) :=
  ⟨by decide, by decide, by decide,
   C18_relative_entries_ascending Project.new sampleNested [qstr "r"] (by decide) (by decide)⟩

/-! ## Lines of the generated text -/

theorem Spec.block_unlines (g : QString → QString) :
    ∀ (files : List QString) (line : QString),
      line ++ files.flatMap (fun file => qstr " \\" ++ [10] ++ qstr "  " ++ g file) ++ [10] =
        Spec.unlines (Spec.blockLines line (files.map g))
  | [], line => by simp [Spec.unlines, Spec.blockLines]
  | f :: files, line => by
    have ih := Spec.block_unlines g files (qstr "  " ++ g f)
    simp only [List.map_cons, Spec.blockLines, Spec.unlines, List.flatMap_cons] at ih ⊢
    rw [← ih]
    simp [Spec.marker, List.append_assoc]

theorem Spec.projectText_unlines (root : QString) (headers sources : List QString) :
    Spec.projectText root headers sources =
      Spec.unlines (Spec.projectLines (headers.map (QDir.relativeFilePath root))
        (sources.map (QDir.relativeFilePath root))) := by
  have hH := Spec.block_unlines (QDir.relativeFilePath root) headers (qstr "HEADERS =")
  have hS := Spec.block_unlines (QDir.relativeFilePath root) sources (qstr "SOURCES =")
  unfold Spec.projectText Spec.block Spec.projectLines
  simp only [Spec.unlines, List.flatMap_append, List.flatMap_cons, List.flatMap_nil,
    List.append_nil, List.nil_append] at hH hS ⊢
  rw [← hH, ← hS]
  simp [List.append_assoc]

theorem Spec.blockLines_length (paths : List QString) :
    ∀ line : QString, (Spec.blockLines line paths).length = 1 + paths.length := by
  induction paths with
  | nil => intro line; rfl
  | cons p ps ih =>
    intro line
    simp only [Spec.blockLines, List.length_cons, ih]
    omega

theorem Spec.blockLines_no_newline (paths : List QString) (hp : ∀ p ∈ paths, 10 ∉ p) :
    ∀ line : QString, 10 ∉ line → ∀ l ∈ Spec.blockLines line paths, 10 ∉ l := by
  induction paths with
  | nil =>
    intro line hline l hl
    simp only [Spec.blockLines, List.mem_singleton] at hl
    subst hl; exact hline
  | cons p ps ih =>
    intro line hline l hl
    simp only [Spec.blockLines, List.mem_cons] at hl
    rcases hl with hl | hl
    · subst hl
      intro hc
      rcases List.mem_append.1 hc with h | h
      · exact hline h
      · exact absurd h (by decide)
    · refine ih (fun q hq => hp q (List.mem_cons_of_mem _ hq)) (qstr "  " ++ p) ?_ l hl
      intro hc
      rcases List.mem_append.1 hc with h | h
      · exact absurd h (by decide)
      · exact hp p (List.mem_cons_self _ _) h

theorem Spec.blockLines_head (paths : List QString) (line : QString) :
    ∀ l ∈ (Spec.blockLines line paths).head?, l = line ∨ l = line ++ Spec.marker := by
  intro l hl
  cases paths with
  | nil =>
    simp only [Spec.blockLines, List.head?_cons, Option.mem_def, Option.some.injEq] at hl
    exact Or.inl hl.symm
  | cons p ps =>
    simp only [Spec.blockLines, List.head?_cons, Option.mem_def, Option.some.injEq] at hl
    exact Or.inr hl.symm

theorem Spec.blockLines_getLast (paths : List QString) :
    ∀ line : QString, ∀ l ∈ (Spec.blockLines line paths).getLast?,
      l = line ∨ ∃ p ∈ paths, l = qstr "  " ++ p := by
  induction paths with
  | nil =>
    intro line l hl
    simp only [Spec.blockLines, List.getLast?_singleton, Option.mem_def,
      Option.some.injEq] at hl
    exact Or.inl hl.symm
  | cons p ps ih =>
    intro line l hl
    have hne : Spec.blockLines (qstr "  " ++ p) ps ≠ [] := by
      cases ps <;> simp [Spec.blockLines]
    simp only [Spec.blockLines] at hl
    have hcons : ∀ (a : QString) (l : List QString), l ≠ [] →
        (a :: l).getLast? = l.getLast? := by
      intro a l hl
      cases l with
      | nil => exact absurd rfl hl
      | cons b l => exact List.getLast?_cons_cons
    rw [hcons _ _ hne] at hl
    rcases ih (qstr "  " ++ p) l hl with h | ⟨q, hq, h⟩
    · exact Or.inr ⟨p, List.mem_cons_self _ _, h⟩
    · exact Or.inr ⟨q, List.mem_cons_of_mem _ hq, h⟩

theorem Spec.blockLines_chain (all : List QString) (paths : List QString)
    (hsub : ∀ p ∈ paths, p ∈ all) :
    ∀ line : QString,
      List.Chain' (fun l m => Spec.marker <:+ l → Spec.IsEntryLine all m)
        (Spec.blockLines line paths) := by
  induction paths with
  | nil => intro line; simp [Spec.blockLines]
  | cons p ps ih =>
    intro line
    simp only [Spec.blockLines]
    rw [List.chain'_cons']
    refine ⟨?_, ih (fun q hq => hsub q (List.mem_cons_of_mem _ hq)) _⟩
    intro m hm _
    rcases Spec.blockLines_head ps (qstr "  " ++ p) m hm with h | h
    · exact ⟨p, hsub p (List.mem_cons_self _ _), Or.inl h⟩
    · exact ⟨p, hsub p (List.mem_cons_self _ _), Or.inr h⟩

theorem Spec.blockLines_ne_nil (line : QString) (paths : List QString) :
    Spec.blockLines line paths ≠ [] := by
  cases paths <;> simp [Spec.blockLines]

theorem Spec.blockLines_last_unmarked (keyword : QString) (paths : List QString)
    (hk : ¬ Spec.marker <:+ keyword)
    (hp : ∀ p ∈ paths, ¬ Spec.marker <:+ qstr "  " ++ p) :
    ∀ l ∈ (Spec.blockLines keyword paths).getLast?, ¬ Spec.marker <:+ l := by
  intro l hl
  rcases Spec.blockLines_getLast paths keyword l hl with h | ⟨p, hmem, h⟩
  · rw [h]; exact hk
  · rw [h]; exact hp p hmem

/-- The lines of the streamed text of any project whose rendered paths contain no newline
and leave no entry line ending with the continuation marker. -/
theorem Project.text_lines (self : Project)
    (hnl : ∀ p ∈ self.renderedHeaders ++ self.renderedSources, 10 ∉ p)
    (hmk : ∀ p ∈ self.renderedHeaders ++ self.renderedSources,
      ¬ Spec.marker <:+ qstr "  " ++ p) :
    self.streamText =
      Spec.unlines (Spec.projectLines self.renderedHeaders self.renderedSources) ∧
    (Spec.projectLines self.renderedHeaders self.renderedSources).length =
      5 + self.m_project.headerFiles.length + self.m_project.sourceFiles.length ∧
    (∀ l ∈ Spec.projectLines self.renderedHeaders self.renderedSources, 10 ∉ l) ∧
    List.Chain'
      (fun l m => Spec.marker <:+ l →
        Spec.IsEntryLine (self.renderedHeaders ++ self.renderedSources) m)
      (Spec.projectLines self.renderedHeaders self.renderedSources) ∧
    (∀ l ∈ (Spec.blockLines (qstr "HEADERS =") self.renderedHeaders).getLast?,
      ¬ Spec.marker <:+ l) ∧
    (∀ l ∈ (Spec.blockLines (qstr "SOURCES =") self.renderedSources).getLast?,
      ¬ Spec.marker <:+ l) ∧
    Spec.blockLines (qstr "HEADERS =") [] = [qstr "HEADERS ="] ∧
    Spec.blockLines (qstr "SOURCES =") [] = [qstr "SOURCES ="] := by
  have hH : ∀ p ∈ self.renderedHeaders, p ∈ self.renderedHeaders ++ self.renderedSources :=
    fun p hp => List.mem_append_left _ hp
  have hS : ∀ p ∈ self.renderedSources, p ∈ self.renderedHeaders ++ self.renderedSources :=
    fun p hp => List.mem_append_right _ hp
  have hkH : ¬ Spec.marker <:+ qstr "HEADERS =" := by decide
  have hkS : ¬ Spec.marker <:+ qstr "SOURCES =" := by decide
  have hlastH := Spec.blockLines_last_unmarked (qstr "HEADERS =") self.renderedHeaders hkH
    (fun p hp => hmk p (hH p hp))
  have hlastS := Spec.blockLines_last_unmarked (qstr "SOURCES =") self.renderedSources hkS
    (fun p hp => hmk p (hS p hp))
  refine ⟨?_, ?_, ?_, ?_, hlastH, hlastS, rfl, rfl⟩
  · rw [Project.streamText_eq]
    exact Spec.projectText_unlines _ _ _
  · simp only [Spec.projectLines, List.length_append, Spec.blockLines_length,
      Project.renderedHeaders, Project.renderedSources, List.length_map, List.length_cons,
      List.length_nil]
    omega
  · intro l hl
    simp only [Spec.projectLines, List.mem_append, List.mem_cons, List.mem_singleton,
      List.not_mem_nil, or_false] at hl
    rcases hl with ((hl | hl) | hl) | hl
    · rcases hl with hl | hl
      · subst hl; decide
      · subst hl; simp
    · exact Spec.blockLines_no_newline _ (fun p hp => hnl p (hH p hp)) _ (by decide) l hl
    · subst hl; simp
    · exact Spec.blockLines_no_newline _ (fun p hp => hnl p (hS p hp)) _ (by decide) l hl
  · unfold Spec.projectLines
    have hnil : ¬ Spec.marker <:+ ([] : QString) := by decide
    have hT : ¬ Spec.marker <:+ qstr "TEMPLATE = app" := by decide
    have c1 : List.Chain'
        (fun l m => Spec.marker <:+ l →
          Spec.IsEntryLine (self.renderedHeaders ++ self.renderedSources) m)
        [qstr "TEMPLATE = app", []] := by
      rw [List.chain'_pair]
      exact fun h => absurd h hT
    have c2 := List.Chain'.append c1
      (Spec.blockLines_chain (self.renderedHeaders ++ self.renderedSources)
        self.renderedHeaders hH (qstr "HEADERS ="))
      (by
        intro x hx y _ hm
        simp only [List.getLast?_cons_cons, List.getLast?_singleton, Option.mem_def,
          Option.some.injEq] at hx
        subst hx
        exact absurd hm hnil)
    have c3 := List.Chain'.append c2
      (List.chain'_singleton ([] : QString))
      (by
        intro x hx y _ hm
        rw [List.getLast?_append_of_ne_nil _ (Spec.blockLines_ne_nil _ _)] at hx
        exact absurd hm (hlastH x hx))
    exact List.Chain'.append c3
      (Spec.blockLines_chain (self.renderedHeaders ++ self.renderedSources)
        self.renderedSources hS (qstr "SOURCES ="))
      (by
        intro x hx y _ hm
        rw [List.getLast?_append_of_ne_nil _ (by simp)] at hx
        simp only [List.getLast?_singleton, Option.mem_def, Option.some.injEq] at hx
        subst hx
        exact absurd hm hnil)

/-! ## Entry lines of scanned files -/

theorem List.getLast?_of_suffix {l1 l2 : QString} (h : l1 <:+ l2) (hne : l1 ≠ []) :
    l2.getLast? = l1.getLast? := by
  obtain ⟨t, rfl⟩ := h
  exact List.getLast?_append_of_ne_nil t hne

theorem ProjectItems.classify_last (name : QString) (k : FileKind)
    (h : ProjectItems.classify name = some k) (c : Nat) (hc : name.getLast? = some c) :
    c ≠ 92 := by
  have hext : ∃ ext : QString, ext ≠ [] ∧ ext <:+ name.map QChar.toLower ∧
      (ext.getLast? = some 104 ∨ ext.getLast? = some 112 ∨ ext.getLast? = some 99) := by
    cases k with
    | Header =>
      rcases (headerExpression_match_iff name).1 ((classify_header_iff name).1 h) with h1 | h1
      · exact ⟨_, by decide, (QString.endsWithCI_iff _ _).1 h1, by decide⟩
      · exact ⟨_, by decide, (QString.endsWithCI_iff _ _).1 h1, by decide⟩
    | Source =>
      rcases (sourceExpression_match_iff name).1 ((classify_source_iff name).1 h) with h1 | h1
      · exact ⟨_, by decide, (QString.endsWithCI_iff _ _).1 h1, by decide⟩
      · exact ⟨_, by decide, (QString.endsWithCI_iff _ _).1 h1, by decide⟩
  obtain ⟨ext, hne, hsuf, hlast⟩ := hext
  have hl := List.getLast?_of_suffix hsuf hne
  rw [List.getLast?_map, hc] at hl
  intro h92
  subst h92
  rcases hlast with h1 | h1 | h1 <;>
    · rw [h1] at hl
      exact absurd hl (by decide)

theorem ProjectItems.classify_not_marked (name : QString) (k : FileKind)
    (h : ProjectItems.classify name = some k) (pre : QString) :
    name ≠ [] ∧ ¬ Spec.marker <:+ pre ++ name := by
  have hne : name ≠ [] := by
    intro hc
    subst hc
    have hnone : ProjectItems.classify [] = none := by decide
    rw [hnone] at h
    exact absurd h (by simp)
  refine ⟨hne, fun hm => ?_⟩
  have hl := List.getLast?_of_suffix hm (by decide)
  rw [List.getLast?_append_of_ne_nil _ hne] at hl
  exact ProjectItems.classify_last name k h 92 hl rfl

mutual
theorem Entry.nodes_last_name (path : QString) (rel : List QString) (visible : Bool)
    (nd : Node) :
    ∀ (e : Entry), nd ∈ Entry.nodes path rel visible e →
      ∃ init, nd.names = init ++ [nd.name]
  | .file n h, hnd => by
    simp only [Entry.nodes, List.mem_singleton] at hnd
    subst hnd
    exact ⟨rel, rfl⟩
  | .special n h, hnd => by
    simp only [Entry.nodes, List.mem_singleton] at hnd
    subst hnd
    exact ⟨rel, rfl⟩
  | .dir n h r cs, hnd => by
    simp only [Entry.nodes, List.mem_cons] at hnd
    rcases hnd with rfl | hnd
    · exact ⟨rel, rfl⟩
    · exact Entry.nodesList_last_name (QDir.filePath path n) (rel ++ [n]) _ nd cs hnd
theorem Entry.nodesList_last_name (path : QString) (rel : List QString) (visible : Bool)
    (nd : Node) :
    ∀ (cs : List Entry), nd ∈ Entry.nodesList path rel visible cs →
      ∃ init, nd.names = init ++ [nd.name]
  | [], hnd => by simp [Entry.nodesList] at hnd
  | e :: rest, hnd => by
    simp only [Entry.nodesList, List.mem_append] at hnd
    rcases hnd with hnd | hnd
    · exact Entry.nodes_last_name path rel visible nd e hnd
    · exact Entry.nodesList_last_name path rel visible nd rest hnd
end

theorem intercalate_concat (init : List QString) (n : QString) :
    ∃ pre, [47].intercalate (init ++ [n]) = pre ++ n := by
  by_cases h : init = []
  · subst h
    exact ⟨[], by simp [List.intercalate, List.intersperse]⟩
  · exact ⟨[47].intercalate init ++ [47], by rw [intercalate_append_singleton init n h]; simp⟩

theorem ProjectItems.scan_rendered (self : ProjectItems) (rootElements : List QString)
    (readable : Bool) (children : List Entry)
    (hroot : ∀ n ∈ rootElements, validName n = true) (htree : Entry.tree children = true)
    (file : QString)
    (hfile : file ∈ (self.scan (QDir.absolutePath rootElements) readable children
        true).headerFiles ∨
      file ∈ (self.scan (QDir.absolutePath rootElements) readable children true).sourceFiles) :
    ∃ (pre name : QString) (k : FileKind),
      QDir.relativeFilePath (QDir.absolutePath rootElements) file = pre ++ name ∧
      ProjectItems.classify name = some k := by
  obtain ⟨hH, hS⟩ := ProjectItems.scan_clear self (QDir.absolutePath rootElements) readable
    children
  rw [hH, hS, QStringList.mem_sort, QStringList.mem_sort, Node.mem_found, Node.mem_found] at hfile
  have hex : ∃ nd ∈ Entry.nodesList (QDir.absolutePath rootElements) [] readable children,
      (∃ k, ProjectItems.classify nd.name = some k) ∧ nd.path = file := by
    rcases hfile with ⟨nd, h1, _, _, h2, h3⟩ | ⟨nd, h1, _, _, h2, h3⟩
    · exact ⟨nd, h1, ⟨_, h2⟩, h3⟩
    · exact ⟨nd, h1, ⟨_, h2⟩, h3⟩
  obtain ⟨nd, hmem, ⟨k, hk⟩, hpath⟩ := hex
  simp only [Entry.tree, Bool.and_eq_true, decide_eq_true_eq] at htree
  have hmem2 : nd ∈ Entry.nodesList (QDir.absolutePath (rootElements ++ [])) []
      readable children := by simpa using hmem
  obtain ⟨hp, hvalid, _⟩ := Entry.nodesList_names rootElements hroot nd _ [] _
    (by simp) htree.1 hmem2
  obtain ⟨init, hinit⟩ := Entry.nodesList_last_name _ _ _ nd _ hmem
  obtain ⟨pre, hpre⟩ := intercalate_concat init nd.name
  refine ⟨pre, nd.name, k, ?_, hk⟩
  rw [← hpath, hp, QDir.relativeFilePath_absolutePath rootElements nd.names hroot hvalid,
    hinit, hpre]

theorem Project.enumerated_rendered (project : Project) (fs : FileSystem)
    (rootElements : List QString) (hroot : ∀ n ∈ rootElements, validName n = true)
    (htree : Entry.tree (fs.entries (QDir.absolutePath rootElements)) = true) :
    ∀ p ∈ (project.enumerated fs rootElements).renderedHeaders ++
        (project.enumerated fs rootElements).renderedSources,
      p ≠ [] ∧ ¬ Spec.marker <:+ qstr "  " ++ p := by
  intro p hp
  simp only [Project.enumerated, Project.enumerateItems, Project.renderedHeaders,
    Project.renderedSources, List.mem_append, List.mem_map] at hp
  have hex : ∃ file, (file ∈ (project.m_project.scan (QDir.absolutePath rootElements)
        (fs.readable (QDir.absolutePath rootElements))
        (fs.entries (QDir.absolutePath rootElements)) true).headerFiles ∨
      file ∈ (project.m_project.scan (QDir.absolutePath rootElements)
        (fs.readable (QDir.absolutePath rootElements))
        (fs.entries (QDir.absolutePath rootElements)) true).sourceFiles) ∧
      QDir.relativeFilePath (QDir.absolutePath rootElements) file = p := by
    rcases hp with ⟨f, hf, hfp⟩ | ⟨f, hf, hfp⟩
    · exact ⟨f, Or.inl hf, hfp⟩
    · exact ⟨f, Or.inr hf, hfp⟩
  obtain ⟨file, hfile, hrel⟩ := hex
  obtain ⟨pre, name, k, hpn, hk⟩ := ProjectItems.scan_rendered _ rootElements _ _ hroot htree
    file hfile
  rw [← hrel, hpn]
  have h1 := ProjectItems.classify_not_marked name k hk (qstr "  " ++ pre)
  refine ⟨?_, by rw [← List.append_assoc]; exact h1.2⟩
  intro hc
  exact h1.1 (List.append_eq_nil.1 hc).2

/-- C19: the text that `Project::generateProject` writes after
`Project::enumerateItems` has no dangling continuation. For the header and source lists
of a scan, whose rendered paths are not empty, and when these paths contain no newline,
the text consists of exactly `5 + |headers| + |sources|` newline-terminated lines; every
line that ends with the continuation marker is directly followed by an entry line, two
spaces and a path; the last line of each block, its last entry or the keyword line of an
empty block, does not end with the marker; and the block of an empty list is the single
keyword line. -/
theorem C19_no_dangling_continuation (project : Project) (fs : FileSystem)
    (rootElements : List QString) (hroot : ∀ n ∈ rootElements, validName n = true)
    (htree : Entry.tree (fs.entries (QDir.absolutePath rootElements)) = true)
    (hnl : ∀ p ∈ (project.enumerated fs rootElements).renderedHeaders ++
        (project.enumerated fs rootElements).renderedSources, 10 ∉ p) :
    (∀ p ∈ (project.enumerated fs rootElements).renderedHeaders ++
        (project.enumerated fs rootElements).renderedSources, p ≠ []) ∧
    (project.enumerated fs rootElements).streamText =
      Spec.unlines (Spec.projectLines (project.enumerated fs rootElements).renderedHeaders
        (project.enumerated fs rootElements).renderedSources) ∧
    (Spec.projectLines (project.enumerated fs rootElements).renderedHeaders
        (project.enumerated fs rootElements).renderedSources).length =
      5 + (project.enumerated fs rootElements).m_project.headerFiles.length +
        (project.enumerated fs rootElements).m_project.sourceFiles.length ∧
    (∀ l ∈ Spec.projectLines (project.enumerated fs rootElements).renderedHeaders
        (project.enumerated fs rootElements).renderedSources, 10 ∉ l) ∧
    List.Chain'
      (fun l m => Spec.marker <:+ l →
        Spec.IsEntryLine ((project.enumerated fs rootElements).renderedHeaders ++
          (project.enumerated fs rootElements).renderedSources) m)
      (Spec.projectLines (project.enumerated fs rootElements).renderedHeaders
        (project.enumerated fs rootElements).renderedSources) ∧
    (∀ l ∈ (Spec.blockLines (qstr "HEADERS =")
        (project.enumerated fs rootElements).renderedHeaders).getLast?,
      ¬ Spec.marker <:+ l) ∧
    (∀ l ∈ (Spec.blockLines (qstr "SOURCES =")
        (project.enumerated fs rootElements).renderedSources).getLast?,
      ¬ Spec.marker <:+ l) ∧
    Spec.blockLines (qstr "HEADERS =") [] = [qstr "HEADERS ="] ∧
    Spec.blockLines (qstr "SOURCES =") [] = [qstr "SOURCES ="] := by
  have hr := Project.enumerated_rendered project fs rootElements hroot htree
  exact ⟨fun p hp => (hr p hp).1,
    Project.text_lines (project.enumerated fs rootElements) hnl (fun p hp => (hr p hp).2)⟩

set_option maxRecDepth 100000 in
theorem C19_no_dangling_continuation_witness :
    (Project.new.enumerated sampleNested [qstr "r"]).renderedHeaders =
      [qstr "a.h", qstr "a/x.h"] ∧
    (Project.new.enumerated sampleNested [qstr "r"]).renderedSources = [qstr "b.cpp"] ∧
    Spec.projectLines (Project.new.enumerated sampleNested [qstr "r"]).renderedHeaders
        (Project.new.enumerated sampleNested [qstr "r"]).renderedSources =
      [qstr "TEMPLATE = app", qstr "", qstr "HEADERS = \\", qstr "  a.h \\", qstr "  a/x.h",
        qstr "", qstr "SOURCES = \\", qstr "  b.cpp"] ∧
    (Project.new.enumerated sampleNested [qstr "r"]).streamText =
      qstr "TEMPLATE = app\n\nHEADERS = \\\n  a.h \\\n  a/x.h\n\nSOURCES = \\\n  b.cpp\n" ∧
    (Project.new.enumerated sampleNested [qstr "r"]).streamText =
      Spec.unlines (Spec.projectLines
        (Project.new.enumerated sampleNested [qstr "r"]).renderedHeaders
        (Project.new.enumerated sampleNested [qstr "r"]).renderedSources) ∧
    List.Chain'
      (fun l m => Spec.marker <:+ l →
        Spec.IsEntryLine ((Project.new.enumerated sampleNested [qstr "r"]).renderedHeaders ++
          (Project.new.enumerated sampleNested [qstr "r"]).renderedSources) m)
      (Spec.projectLines (Project.new.enumerated sampleNested [qstr "r"]).renderedHeaders
        (Project.new.enumerated sampleNested [qstr "r"]).renderedSources) :=
  ⟨by decide, by decide, by decide, by decide,
   (C19_no_dangling_continuation Project.new sampleNested [qstr "r"] (by decide) (by decide)
      (by decide)).2.1,
   (C19_no_dangling_continuation Project.new sampleNested [qstr "r"] (by decide) (by decide)
      (by decide)).2.2.2.2.1⟩

end Qpfg
